import Mathlib

/-!
Verification development for a small Python DFA/trie word matcher
(`dfa_place_finder/dfa.py`).  The Python class `DFA` keeps a tree of
`_Node` objects (`children : dict[str, _Node]`, `is_final : bool`), a
distinguished `_trap_node`, and offers `insert`, `accepts` (which skips
`string.punctuation` characters and falls into the trap on a missing
transition) and `to_dot` (a BFS over the trie emitting GraphViz DOT text).

The embedding uses an arena: nodes live in a list, and a node reference is
its index in that list.  Index equality models Python object identity, and
allocating a fresh `_Node()` models appending one entry at the end of the
arena.  A fresh `DFA` has the root at index 0 and the trap node at index 1.
Python dicts preserve insertion order, so `children` and the export's
`node_ids` dict are association lists to which new keys are appended.
-/

set_option maxRecDepth 4000

namespace DfaPy

/-- One automaton state: ordered transition list (symbol, child index) and
the accepting flag, mirroring `DFA._Node`. -/
structure Node where
  children : List (Char × Nat)
  is_final : Bool
deriving DecidableEq, Repr

/-- Membership of a character in Python `string.punctuation`
(ASCII 33-47, 58-64, 91-96, 123-126). -/
def isPunct (c : Char) : Bool :=
  (33 ≤ c.toNat && c.toNat ≤ 47) || (58 ≤ c.toNat && c.toNat ≤ 64) ||
  (91 ≤ c.toNat && c.toNat ≤ 96) || (123 ≤ c.toNat && c.toNat ≤ 126)

/-- Dict lookup in a `children` association list (first match wins; keys of a
Python dict are unique anyway). -/
def lookupChild : List (Char × Nat) → Char → Option Nat
  | [], _ => none
  | (c, j) :: rest, x => if x = c then some j else lookupChild rest x

/-- The automaton: arena of nodes plus the indices playing the role of the
`_root` and `_trap_node` object references. -/
structure DFA where
  nodes : List Node
  root : Nat
  trap : Nat
deriving DecidableEq, Repr

/-- `DFA.__init__`: fresh root (index 0) and fresh trap node (index 1). -/
def DFA.empty : DFA := ⟨[⟨[], false⟩, ⟨[], false⟩], 0, 1⟩

/-- Arena read: `a.getD i` with the default an empty non-final node; in the
source every dereferenced index is in range, so the default is never seen
on real data. -/
def nget (a : List Node) (i : Nat) : Node := a.getD i ⟨[], false⟩

/-- The loop of `DFA.insert`: walk `word` from node `cur`, following
`children.setdefault(ch, _Node())` (reuse the child when present, else
allocate a fresh node at the end of the arena and append the edge at the
end of the dict), then set `is_final := true` on the final node. -/
def insertFrom : List Node → Nat → List Char → List Node
  | a, cur, [] => a.set cur ⟨(nget a cur).children, true⟩
  | a, cur, ch :: rest =>
    match lookupChild (nget a cur).children ch with
    | some j => insertFrom a j rest
    | none =>
      let newIdx := a.length
      insertFrom
        ((a.set cur ⟨(nget a cur).children ++ [(ch, newIdx)], (nget a cur).is_final⟩)
          ++ [⟨[], false⟩])
        newIdx rest

/-- `DFA.insert`. -/
def DFA.insert (d : DFA) (w : List Char) : DFA :=
  ⟨insertFrom d.nodes d.root w, d.root, d.trap⟩

/-- The scan loop of `DFA.accepts`: returns the index of the node the walk
ends at.  Punctuation is skipped; a missing transition on a non-punctuation
symbol goes to the trap and `break`s (the remaining symbols are ignored). -/
def acceptsFrom (a : List Node) (trap : Nat) : Nat → List Char → Nat
  | cur, [] => cur
  | cur, ch :: rest =>
    if isPunct ch then acceptsFrom a trap cur rest
    else
      match lookupChild (nget a cur).children ch with
      | some j => acceptsFrom a trap j rest
      | none => trap

/-- `DFA.accepts`: false when the walk ends at the trap node (`node ==
self._trap_node` is identity, i.e. index equality), else the final flag. -/
def DFA.accepts (d : DFA) (t : List Char) : Bool :=
  let f := acceptsFrom d.nodes d.trap d.root t
  if f = d.trap then false else (nget d.nodes f).is_final

/-- Building an automaton by a sequence of `insert` calls on a fresh `DFA`. -/
def buildList (ws : List (List Char)) : DFA :=
  ws.foldl DFA.insert DFA.empty

/-- The automatons the Python class can ever hold: a fresh instance followed
by any sequence of `insert` calls. -/
inductive Built : DFA → Prop
  | empty : Built DFA.empty
  | insert (d : DFA) (w : List Char) : Built d → Built (d.insert w)

/-- `Q{k}` identifier string used by `to_dot.get_id`. -/
def idStr (k : Nat) : String := "Q" ++ Nat.repr k

/-- Lookup in the `node_ids` dict (node index to identifier number). -/
def lookupId : List (Nat × Nat) → Nat → Option Nat
  | [], _ => none
  | (n, k) :: rest, x => if x = n then some k else lookupId rest x

/-- `to_dot.get_id`: return the assigned number, assigning `len(node_ids)`
on first sight (appended at the end of the dict). -/
def getId (ids : List (Nat × Nat)) (n : Nat) : List (Nat × Nat) × Nat :=
  match lookupId ids n with
  | some k => (ids, k)
  | none => (ids ++ [(n, ids.length)], ids.length)

/-- Label escaping in `to_dot`: `ch.replace("\\", "\\\\").replace("\"",
"\\\"")` applied to a one-character string. -/
def escapeLabel (c : Char) : String :=
  if c.toNat = 92 then "\\\\"
  else if c.toNat = 34 then "\\\""
  else String.singleton c

/-- The fixed preamble lines of the DOT output.  In the source the `node
[...]` and `edge [...]` string literals are adjacent (no comma), so Python
concatenates them into a single list element. -/
def preambleLines : List String :=
  ["digraph DFA \x7b",
   "  rankdir=LR;",
   "  graph [bgcolor=\"#131a2e\"];",
   "  node [shape=circle, style=filled, fillcolor=\"#103c69\", color=\"#2B65EC\", fontcolor=\"white\", fontname=\"Courier\"];  edge [fontcolor=\"#00f7ff\", color=\"#00f7ff\", fontname=\"Courier\"];"]

/-- The invisible start-marker node declaration line. -/
def startDeclLine : String := "  __start__ [shape=none,label=\"\"];"

/-- The start-marker edge line into the root's identifier. -/
def startEdgeLine (rootId : String) : String := "  __start__ -> " ++ rootId ++ ";"

/-- The doublecircle style line emitted for an accepting dequeued node. -/
def finalLine (nid : String) : String :=
  "  " ++ nid ++ " [shape=doublecircle, style=filled, fillcolor=\"#66CC66\", color=\"#339933\", fontcolor=\"white\"];"

/-- A labeled transition edge line. -/
def edgeLine (nid cid label : String) : String :=
  "  " ++ nid ++ " -> " ++ cid ++ " [label=\"" ++ label ++ "\"];"

/-- State of the BFS in `to_dot`: the `node_ids` dict, the `seen` set (as a
list in discovery order), the queue, and the accumulated output lines. -/
structure BfsSt where
  ids : List (Nat × Nat)
  seen : List Nat
  queue : List Nat
  lines : List String
deriving DecidableEq, Repr

/-- The inner `for ch, child in node.children.items()` loop of `to_dot`:
assign the child an id (at discovery), emit the labeled edge, and enqueue
the child when unseen. -/
def procChildren (nid : String) : List (Char × Nat) → BfsSt → BfsSt
  | [], st => st
  | (ch, child) :: rest, st =>
    let p := getId st.ids child
    let l := edgeLine nid (idStr p.2) (escapeLabel ch)
    let st₁ : BfsSt :=
      if child ∈ st.seen then ⟨p.1, st.seen, st.queue, st.lines ++ [l]⟩
      else ⟨p.1, st.seen ++ [child], st.queue ++ [child], st.lines ++ [l]⟩
    procChildren nid rest st₁

/-- The `while queue` loop of `to_dot`, with fuel (the loop dequeues each
node at most once, so `nodes.length` fuel is never exhausted on automatons
the class builds; this is proved below). -/
def bfsLoop (a : List Node) : Nat → BfsSt → BfsSt
  | 0, st => st
  | fuel + 1, st =>
    match st.queue with
    | [] => st
    | node :: rest =>
      let p := getId st.ids node
      let nid := idStr p.2
      let nd := nget a node
      let lines₁ := if nd.is_final then st.lines ++ [finalLine nid] else st.lines
      bfsLoop a fuel (procChildren nid nd.children ⟨p.1, st.seen, rest, lines₁⟩)

/-- The whole of `to_dot` before the final join: assign the root its id
(`Q0`), emit preamble and start marker, then run the BFS from the root. -/
def DFA.toDotRun (d : DFA) : BfsSt :=
  let p := getId [] d.root
  bfsLoop d.nodes d.nodes.length
    ⟨p.1, [d.root], [d.root],
     preambleLines ++ [startDeclLine, startEdgeLine (idStr p.2)]⟩

/-- The final `node_ids` dict of the export. -/
def DFA.toDotIds (d : DFA) : List (Nat × Nat) := d.toDotRun.ids

/-- The nodes of the export in discovery order (`seen` grows exactly at
discovery time). -/
def DFA.toDotSeen (d : DFA) : List Nat := d.toDotRun.seen

/-- The full list `lines` of the export, closing brace included. -/
def DFA.toDotLines (d : DFA) : List String := d.toDotRun.lines ++ ["\x7d"]

/-- Python `"\n".join(lines)`. -/
def joinSep (sep : String) : List String → String
  | [] => ""
  | [x] => x
  | x :: y :: rest => x ++ sep ++ joinSep sep (y :: rest)

/-- `DFA.to_dot`. -/
def DFA.to_dot (d : DFA) : String := joinSep "\n" d.toDotLines

/-- Pure path-following in the trie (no punctuation logic, no trap):
`walk a cur w` is the node reached from `cur` by the transitions spelled by
`w`, or `none` when some transition is missing. -/
def walk (a : List Node) : Nat → List Char → Option Nat
  | cur, [] => some cur
  | cur, ch :: rest =>
    match lookupChild (nget a cur).children ch with
    | some j => walk a j rest
    | none => none

/-- All transition targets of the arena, flattened. -/
def childTargets (a : List Node) : List Nat :=
  (a.map (fun nd => nd.children.map Prod.snd)).flatten

/-- The non-punctuation subsequence of a text. -/
def nonPunct (t : List Char) : List Char := t.filter (fun c => !isPunct c)

section ListLemmas

variable {α : Type _} (dflt : α)

theorem getD_of_ge : ∀ (l : List α) (i : Nat), l.length ≤ i → l.getD i dflt = dflt
  | [], _, _ => rfl
  | _ :: l, i + 1, h => getD_of_ge l i (Nat.le_of_succ_le_succ h)

theorem getD_set_self : ∀ (l : List α) (i : Nat) (x : α), i < l.length →
    (l.set i x).getD i dflt = x
  | _ :: _, 0, _, _ => rfl
  | _ :: l, i + 1, x, h => getD_set_self l i x (Nat.lt_of_succ_lt_succ h)

theorem getD_set_ne : ∀ (l : List α) (i j : Nat) (x : α), i ≠ j →
    (l.set i x).getD j dflt = l.getD j dflt
  | [], _, _, _, _ => rfl
  | _ :: _, 0, 0, _, h => absurd rfl h
  | _ :: _, 0, _ + 1, _, _ => rfl
  | _ :: _, _ + 1, 0, _, _ => rfl
  | _ :: l, i + 1, j + 1, x, h =>
    getD_set_ne l i j x (fun hij => h (congrArg Nat.succ hij))

theorem getD_append_left : ∀ (l m : List α) (i : Nat), i < l.length →
    (l ++ m).getD i dflt = l.getD i dflt
  | _ :: _, _, 0, _ => rfl
  | _ :: l, m, i + 1, h => getD_append_left l m i (Nat.lt_of_succ_lt_succ h)

theorem getD_append_len : ∀ (l : List α) (x : α),
    (l ++ [x]).getD l.length dflt = x
  | [], _ => rfl
  | _ :: l, x => getD_append_len l x

theorem set_getD_self : ∀ (l : List α) (i : Nat),
    l.set i (l.getD i dflt) = l
  | [], _ => rfl
  | _ :: _, 0 => rfl
  | a :: l, i + 1 => congrArg (a :: ·) (set_getD_self l i)

theorem getD_lt_mem : ∀ (l : List α) (i : Nat), i < l.length → l.getD i dflt ∈ l
  | _ :: _, 0, _ => List.mem_cons_self _ _
  | _ :: l, i + 1, h => List.mem_cons_of_mem _ (getD_lt_mem l i (Nat.lt_of_succ_lt_succ h))

theorem getD_eq_of_mem_set : ∀ (l : List α) (i j : Nat) (x : α),
    (l.set i x).getD j dflt = l.getD j dflt ∨ (l.set i x).getD j dflt = x
  | [], _, _, _ => Or.inl rfl
  | _ :: _, 0, 0, _ => Or.inr rfl
  | _ :: _, 0, _ + 1, _ => Or.inl rfl
  | _ :: _, _ + 1, 0, _ => Or.inl rfl
  | _ :: l, i + 1, j + 1, x => getD_eq_of_mem_set l i j x

end ListLemmas

theorem nget_of_ge (a : List Node) (i : Nat) (h : a.length ≤ i) :
    nget a i = ⟨[], false⟩ := getD_of_ge _ a i h

theorem nget_set_self (a : List Node) (i : Nat) (x : Node) (h : i < a.length) :
    nget (a.set i x) i = x := getD_set_self _ a i x h

theorem nget_set_ne (a : List Node) (i j : Nat) (x : Node) (h : i ≠ j) :
    nget (a.set i x) j = nget a j := getD_set_ne _ a i j x h

theorem nget_append_left (a b : List Node) (i : Nat) (h : i < a.length) :
    nget (a ++ b) i = nget a i := getD_append_left _ a b i h

theorem nget_append_len (a : List Node) (x : Node) :
    nget (a ++ [x]) a.length = x := getD_append_len _ a x

theorem set_nget_self (a : List Node) (i : Nat) :
    a.set i (nget a i) = a := set_getD_self _ a i

theorem lookupChild_append (l m : List (Char × Nat)) (c : Char) :
    lookupChild (l ++ m) c =
      (match lookupChild l c with
        | some j => some j
        | none => lookupChild m c) := by
  induction l with
  | nil => rfl
  | cons p rest ih =>
    obtain ⟨x, j⟩ := p
    by_cases h : c = x <;> simp [lookupChild, h, ih]

theorem lookupChild_mem : ∀ (l : List (Char × Nat)) (c : Char) (j : Nat),
    lookupChild l c = some j → (c, j) ∈ l := by
  intro l c j h
  induction l with
  | nil => exact absurd h (by simp [lookupChild])
  | cons p rest ih =>
    obtain ⟨x, k⟩ := p
    by_cases hc : c = x
    · subst hc
      simp [lookupChild] at h
      simp [h]
    · simp [lookupChild, hc] at h
      exact List.mem_cons_of_mem _ (ih h)

theorem lookupChild_eq_none (l : List (Char × Nat)) (c : Char) :
    lookupChild l c = none ↔ c ∉ l.map Prod.fst := by
  induction l with
  | nil => simp [lookupChild]
  | cons p rest ih =>
    obtain ⟨x, k⟩ := p
    by_cases hc : c = x <;> simp [lookupChild, hc, ih]

theorem lookupId_eq_none (l : List (Nat × Nat)) (n : Nat) :
    lookupId l n = none ↔ n ∉ l.map Prod.fst := by
  induction l with
  | nil => simp [lookupId]
  | cons p rest ih =>
    obtain ⟨x, k⟩ := p
    by_cases hn : n = x <;> simp [lookupId, hn, ih]

theorem mem_childTargets_of_edge (a : List Node) (i : Nat) (c : Char) (j : Nat)
    (h : (c, j) ∈ (nget a i).children) : j ∈ childTargets a := by
  by_cases hi : i < a.length
  · have hmem : nget a i ∈ a := getD_lt_mem _ a i hi
    simp only [childTargets, List.mem_flatten]
    exact ⟨(nget a i).children.map Prod.snd, List.mem_map_of_mem _ hmem,
      List.mem_map_of_mem _ h⟩
  · rw [nget_of_ge a i (Nat.le_of_not_lt hi)] at h
    exact absurd h (List.not_mem_nil _)

theorem exists_edge_of_mem_childTargets (a : List Node) (j : Nat)
    (h : j ∈ childTargets a) : ∃ i, i < a.length ∧ ∃ c, (c, j) ∈ (nget a i).children := by
  simp only [childTargets, List.mem_flatten, List.mem_map] at h
  obtain ⟨_, ⟨nd, hnd, rfl⟩, hj⟩ := h
  obtain ⟨p, hp, hpj⟩ := List.mem_map.mp hj
  obtain ⟨n, hget⟩ := List.mem_iff_get.mp hnd
  refine ⟨n.1, n.isLt, p.1, ?_⟩
  have hn : nget a n.1 = nd := by
    unfold nget
    rw [List.getD_eq_getElem?_getD, List.getElem?_eq_getElem n.isLt, Option.getD_some]
    rw [← List.get_eq_getElem]
    exact hget
  rw [hn]
  simpa [← hpj] using hp

theorem set_of_ge {α : Type _} : ∀ (l : List α) (i : Nat) (x : α), l.length ≤ i →
    l.set i x = l
  | [], _, _, _ => rfl
  | _ :: _, 0, _, h => absurd h (by simp)
  | a :: l, i + 1, x, h => congrArg (a :: ·) (set_of_ge l i x (Nat.le_of_succ_le_succ h))

/-- The arena obtained by `children.setdefault(ch, _Node())` when `ch` is
absent: append the new edge to `cur`'s dict and the fresh node to the arena. -/
def allocChild (a : List Node) (cur : Nat) (ch : Char) : List Node :=
  (a.set cur ⟨(nget a cur).children ++ [(ch, a.length)], (nget a cur).is_final⟩)
    ++ [⟨[], false⟩]

theorem allocChild_length (a : List Node) (cur : Nat) (ch : Char) :
    (allocChild a cur ch).length = a.length + 1 := by
  simp [allocChild]

theorem insertFrom_cons_some {a : List Node} {cur : Nat} {ch : Char} {j : Nat}
    (rest : List Char) (h : lookupChild (nget a cur).children ch = some j) :
    insertFrom a cur (ch :: rest) = insertFrom a j rest := by
  simp [insertFrom, h]

theorem insertFrom_cons_none {a : List Node} {cur : Nat} {ch : Char}
    (rest : List Char) (h : lookupChild (nget a cur).children ch = none) :
    insertFrom a cur (ch :: rest) = insertFrom (allocChild a cur ch) a.length rest := by
  simp [insertFrom, h, allocChild]

/-- Everything `insert` does is monotone: it never removes an edge and never
clears an accepting flag. `Ext a b` says `b` extends `a` in this sense. -/
def Ext (a b : List Node) : Prop :=
  a.length ≤ b.length ∧
  (∀ i c j, lookupChild (nget a i).children c = some j →
    lookupChild (nget b i).children c = some j) ∧
  (∀ i, (nget a i).is_final = true → (nget b i).is_final = true)

theorem ext_refl (a : List Node) : Ext a a :=
  ⟨Nat.le_refl _, fun _ _ _ h => h, fun _ h => h⟩

theorem ext_trans {a b c : List Node} (h₁ : Ext a b) (h₂ : Ext b c) : Ext a c :=
  ⟨Nat.le_trans h₁.1 h₂.1,
   fun i x j h => h₂.2.1 i x j (h₁.2.1 i x j h),
   fun i h => h₂.2.2 i (h₁.2.2 i h)⟩

theorem ext_set_final (a : List Node) (cur : Nat) :
    Ext a (a.set cur ⟨(nget a cur).children, true⟩) := by
  by_cases hcur : cur < a.length
  · refine ⟨Nat.le_of_eq (List.length_set a _ _).symm, ?_, ?_⟩
    · intro i c j h
      by_cases hi : i = cur
      · subst hi
        rw [nget_set_self a i _ hcur]
        exact h
      · rw [nget_set_ne a cur i _ (fun he => hi he.symm)]
        exact h
    · intro i h
      by_cases hi : i = cur
      · subst hi
        rw [nget_set_self a i _ hcur]
      · rw [nget_set_ne a cur i _ (fun he => hi he.symm)]
        exact h
  · rw [set_of_ge a cur _ (Nat.le_of_not_lt hcur)]
    exact ext_refl a

theorem nget_allocChild_low (a : List Node) (cur : Nat) (ch : Char) (i : Nat)
    (hi : i < a.length) (hne : i ≠ cur) : nget (allocChild a cur ch) i = nget a i := by
  unfold allocChild
  rw [nget_append_left _ _ i (by simpa using hi), nget_set_ne a cur i _ (fun h => hne h.symm)]

theorem nget_allocChild_cur (a : List Node) (cur : Nat) (ch : Char)
    (hcur : cur < a.length) : nget (allocChild a cur ch) cur =
      ⟨(nget a cur).children ++ [(ch, a.length)], (nget a cur).is_final⟩ := by
  unfold allocChild
  rw [nget_append_left _ _ cur (by simpa using hcur), nget_set_self a cur _ hcur]

theorem nget_allocChild_new (a : List Node) (cur : Nat) (ch : Char) :
    nget (allocChild a cur ch) a.length = ⟨[], false⟩ := by
  unfold allocChild
  have h : (a.set cur ⟨(nget a cur).children ++ [(ch, a.length)], (nget a cur).is_final⟩).length = a.length :=
    List.length_set a _ _
  have h₂ := nget_append_len
    (a.set cur ⟨(nget a cur).children ++ [(ch, a.length)], (nget a cur).is_final⟩)
    ⟨[], false⟩
  rw [h] at h₂
  exact h₂

theorem nget_allocChild_ge (a : List Node) (cur : Nat) (ch : Char) (i : Nat)
    (hi : a.length + 1 ≤ i) : nget (allocChild a cur ch) i = ⟨[], false⟩ :=
  nget_of_ge _ i (by rw [allocChild_length]; exact hi)

theorem ext_allocChild (a : List Node) (cur : Nat) (ch : Char) :
    Ext a (allocChild a cur ch) := by
  refine ⟨by rw [allocChild_length]; exact Nat.le_succ _, ?_, ?_⟩
  · intro i c j h
    by_cases hi : i < a.length
    · by_cases hic : i = cur
      · subst hic
        rw [nget_allocChild_cur a i ch hi]
        rw [lookupChild_append]
        simp [h]
      · rw [nget_allocChild_low a cur ch i hi hic]
        exact h
    · rw [nget_of_ge a i (Nat.le_of_not_lt hi)] at h
      exact absurd h (by simp [lookupChild])
  · intro i h
    by_cases hi : i < a.length
    · by_cases hic : i = cur
      · subst hic
        rw [nget_allocChild_cur a i ch hi]
        exact h
      · rw [nget_allocChild_low a cur ch i hi hic]
        exact h
    · rw [nget_of_ge a i (Nat.le_of_not_lt hi)] at h
      exact absurd h (by simp)

theorem insertFrom_ext : ∀ (w : List Char) (a : List Node) (cur : Nat),
    Ext a (insertFrom a cur w)
  | [], a, cur => ext_set_final a cur
  | ch :: rest, a, cur => by
    cases hl : lookupChild (nget a cur).children ch with
    | some j =>
      rw [insertFrom_cons_some rest hl]
      exact insertFrom_ext rest a j
    | none =>
      rw [insertFrom_cons_none rest hl]
      exact ext_trans (ext_allocChild a cur ch)
        (insertFrom_ext rest (allocChild a cur ch) a.length)

theorem walk_mono {a b : List Node} (hab : Ext a b) :
    ∀ (w : List Char) (cur j : Nat), walk a cur w = some j → walk b cur w = some j
  | [], cur, j, h => h
  | ch :: rest, cur, j, h => by
    unfold walk at h ⊢
    cases hl : lookupChild (nget a cur).children ch with
    | some j₁ =>
      rw [hl] at h
      rw [hab.2.1 cur ch j₁ hl]
      exact walk_mono hab rest j₁ j h
    | none =>
      rw [hl] at h
      exact absurd h (by simp)

theorem acceptsFrom_of_walk {a : List Node} {trap : Nat} :
    ∀ (t : List Char) (cur j : Nat), walk a cur (nonPunct t) = some j →
    acceptsFrom a trap cur t = j
  | [], cur, j, h => by
    simp only [nonPunct, List.filter_nil, walk, Option.some_inj] at h
    simpa [acceptsFrom] using h
  | ch :: rest, cur, j, h => by
    by_cases hp : isPunct ch
    · have hnp : nonPunct (ch :: rest) = nonPunct rest := by
        simp [nonPunct, List.filter_cons, hp]
      rw [hnp] at h
      simpa [acceptsFrom, hp] using acceptsFrom_of_walk rest cur j h
    · have hnp : nonPunct (ch :: rest) = ch :: nonPunct rest := by
        simp [nonPunct, List.filter_cons, hp]
      rw [hnp] at h
      unfold walk at h
      cases hl : lookupChild (nget a cur).children ch with
      | some j₁ =>
        rw [hl] at h
        simpa [acceptsFrom, hp, hl] using acceptsFrom_of_walk rest j₁ j h
      | none =>
        rw [hl] at h
        exact absurd h (by simp)

theorem acceptsFrom_to_walk {a : List Node} {trap : Nat} :
    ∀ (t : List Char) (cur : Nat), acceptsFrom a trap cur t ≠ trap →
    walk a cur (nonPunct t) = some (acceptsFrom a trap cur t)
  | [], cur, _ => by simp [nonPunct, acceptsFrom, walk]
  | ch :: rest, cur, h => by
    by_cases hp : isPunct ch
    · have hnp : nonPunct (ch :: rest) = nonPunct rest := by
        simp [nonPunct, List.filter_cons, hp]
      rw [hnp]
      have h₁ : acceptsFrom a trap cur (ch :: rest) = acceptsFrom a trap cur rest := by
        simp [acceptsFrom, hp]
      rw [h₁] at h ⊢
      exact acceptsFrom_to_walk rest cur h
    · cases hl : lookupChild (nget a cur).children ch with
      | some j₁ =>
        have hnp : nonPunct (ch :: rest) = ch :: nonPunct rest := by
          simp [nonPunct, List.filter_cons, hp]
        have h₁ : acceptsFrom a trap cur (ch :: rest) = acceptsFrom a trap j₁ rest := by
          simp [acceptsFrom, hp, hl]
        rw [h₁] at h ⊢
        rw [hnp]
        unfold walk
        rw [hl]
        exact acceptsFrom_to_walk rest j₁ h
      | none =>
        have h₁ : acceptsFrom a trap cur (ch :: rest) = trap := by
          simp [acceptsFrom, hp, hl]
        exact absurd h₁ h

theorem walk_ne_one {a : List Node} (hlb : ∀ j ∈ childTargets a, 2 ≤ j) :
    ∀ (w : List Char) (cur j : Nat), cur ≠ 1 → walk a cur w = some j → j ≠ 1
  | [], cur, j, hc, h => by
    simp only [walk, Option.some_inj] at h
    rw [← h]
    exact hc
  | ch :: rest, cur, j, hc, h => by
    unfold walk at h
    cases hl : lookupChild (nget a cur).children ch with
    | some j₁ =>
      rw [hl] at h
      have hmem : j₁ ∈ childTargets a :=
        mem_childTargets_of_edge a cur ch j₁ (lookupChild_mem _ ch j₁ hl)
      have : 2 ≤ j₁ := hlb j₁ hmem
      exact walk_ne_one hlb rest j₁ j (by omega) h
    | none =>
      rw [hl] at h
      exact absurd h (by simp)

section MapFlatten

variable {α β : Type _} (f : α → β)

theorem map_set_comm : ∀ (l : List α) (i : Nat) (x : α),
    (l.set i x).map f = (l.map f).set i (f x)
  | [], _, _ => rfl
  | _ :: _, 0, _ => rfl
  | a :: l, i + 1, x => congrArg (f a :: ·) (map_set_comm l i x)

theorem getD_map_lt (d₁ : α) (d₂ : β) : ∀ (l : List α) (i : Nat), i < l.length →
    (l.map f).getD i d₂ = f (l.getD i d₁)
  | _ :: _, 0, _ => rfl
  | _ :: l, i + 1, h => getD_map_lt d₁ d₂ l i (Nat.lt_of_succ_lt_succ h)

theorem flatten_set_append : ∀ (M : List (List β)) (i : Nat) (x : β), i < M.length →
    List.Perm (M.set i (M.getD i [] ++ [x])).flatten (M.flatten ++ [x])
  | m :: M, 0, x, _ => by
    simp only [List.getD_cons_zero, List.set_cons_zero, List.flatten_cons,
      List.append_assoc]
    exact (@List.perm_append_comm _ [x] M.flatten).append_left m
  | m :: M, i + 1, x, h => by
    simp only [List.getD_cons_succ, List.set_cons_succ, List.flatten_cons,
      List.append_assoc]
    exact (flatten_set_append M i x (Nat.lt_of_succ_lt_succ h)).append_left m

end MapFlatten

theorem nget_eq_getD (a : List Node) (i : Nat) : nget a i = a.getD i ⟨[], false⟩ := rfl

theorem childTargets_append_nil (a : List Node) :
    childTargets (a ++ [⟨[], false⟩]) = childTargets a := by
  simp [childTargets]

theorem childTargets_set_final (a : List Node) (cur : Nat) (h : cur < a.length) :
    childTargets (a.set cur ⟨(nget a cur).children, true⟩) = childTargets a := by
  unfold childTargets
  rw [map_set_comm]
  have hg : ((a.map (fun nd => nd.children.map Prod.snd)).getD cur []) =
      (nget a cur).children.map Prod.snd := by
    rw [nget_eq_getD]
    exact getD_map_lt _ ⟨[], false⟩ [] a cur h
  rw [show ((⟨(nget a cur).children, true⟩ : Node).children.map Prod.snd) =
      (a.map (fun nd => nd.children.map Prod.snd)).getD cur [] from hg.symm]
  rw [set_getD_self]

theorem children_set_final (a : List Node) (cur i : Nat) :
    (nget (a.set cur ⟨(nget a cur).children, true⟩) i).children = (nget a i).children := by
  by_cases hcur : cur < a.length
  · by_cases hi : i = cur
    · subst hi
      rw [nget_set_self a i _ hcur]
    · rw [nget_set_ne a cur i _ (fun h => hi h.symm)]
  · rw [set_of_ge a cur _ (Nat.le_of_not_lt hcur)]

theorem childTargets_allocChild (a : List Node) (cur : Nat) (ch : Char)
    (h : cur < a.length) :
    List.Perm (childTargets (allocChild a cur ch)) (childTargets a ++ [a.length]) := by
  unfold allocChild
  rw [childTargets_append_nil]
  unfold childTargets
  rw [map_set_comm]
  have hg : ((a.map (fun nd => nd.children.map Prod.snd)).getD cur []) =
      (nget a cur).children.map Prod.snd := by
    rw [nget_eq_getD]
    exact getD_map_lt _ ⟨[], false⟩ [] a cur h
  have hmap : ((⟨(nget a cur).children ++ [(ch, a.length)], (nget a cur).is_final⟩ : Node).children.map Prod.snd) =
      (a.map (fun nd => nd.children.map Prod.snd)).getD cur [] ++ [a.length] := by
    rw [hg]
    simp
  rw [hmap]
  exact flatten_set_append _ cur a.length (by simpa using h)

/-- The structural invariant of every arena the class ever builds: at least
the root (0) and the trap (1) exist; the trap node is empty and non-final;
every stored transition target is a node index at least 2 (so neither root
nor trap) and in range; edges go from lower to strictly higher indices;
every index ≥ 2 is the target of exactly one stored edge; and per-node
transition symbols are distinct (it is a dict). -/
structure ArenaInv (a : List Node) : Prop where
  two_le : 2 ≤ a.length
  trap_empty : nget a 1 = ⟨[], false⟩
  target_lb : ∀ j ∈ childTargets a, 2 ≤ j
  target_ub : ∀ j ∈ childTargets a, j < a.length
  parent_lt : ∀ i c j, (c, j) ∈ (nget a i).children → i < j
  targets_nodup : (childTargets a).Nodup
  complete : ∀ j, 2 ≤ j → j < a.length → j ∈ childTargets a
  keys_nodup : ∀ i, ((nget a i).children.map Prod.fst).Nodup

theorem arenaInv_set_final {a : List Node} (hInv : ArenaInv a) (cur : Nat)
    (hcur : cur < a.length) (hcur1 : cur ≠ 1) :
    ArenaInv (a.set cur ⟨(nget a cur).children, true⟩) := by
  have hct := childTargets_set_final a cur hcur
  have hch := children_set_final a cur
  have hlen : (a.set cur ⟨(nget a cur).children, true⟩).length = a.length :=
    List.length_set a _ _
  refine ⟨?_, ?_, ?_, ?_, ?_, ?_, ?_, ?_⟩
  · rw [hlen]; exact hInv.two_le
  · rw [nget_set_ne a cur 1 _ hcur1]; exact hInv.trap_empty
  · rw [hct]; exact hInv.target_lb
  · rw [hct, hlen]; exact hInv.target_ub
  · intro i c j h
    rw [hch i] at h
    exact hInv.parent_lt i c j h
  · rw [hct]; exact hInv.targets_nodup
  · rw [hct, hlen]; exact hInv.complete
  · intro i
    rw [hch i]
    exact hInv.keys_nodup i

theorem arenaInv_allocChild {a : List Node} (hInv : ArenaInv a) (cur : Nat) (ch : Char)
    (hcur : cur < a.length) (hcur1 : cur ≠ 1)
    (hnone : lookupChild (nget a cur).children ch = none) :
    ArenaInv (allocChild a cur ch) := by
  have hperm := childTargets_allocChild a cur ch hcur
  have hlen := allocChild_length a cur ch
  have hmem : ∀ j, j ∈ childTargets (allocChild a cur ch) ↔
      (j ∈ childTargets a ∨ j = a.length) := by
    intro j
    rw [hperm.mem_iff]
    simp
  refine ⟨?_, ?_, ?_, ?_, ?_, ?_, ?_, ?_⟩
  · rw [hlen]; exact Nat.le_succ_of_le hInv.two_le
  · rw [nget_allocChild_low a cur ch 1 (by have := hInv.two_le; omega)
      (fun h => hcur1 h.symm)]
    exact hInv.trap_empty
  · intro j hj
    rcases (hmem j).mp hj with h | h
    · exact hInv.target_lb j h
    · have := hInv.two_le
      omega
  · intro j hj
    rw [hlen]
    rcases (hmem j).mp hj with h | h
    · exact Nat.lt_succ_of_lt (hInv.target_ub j h)
    · omega
  · intro i c j h
    by_cases hi : i < a.length
    · by_cases hic : i = cur
      · subst hic
        rw [nget_allocChild_cur a i ch hi] at h
        rcases List.mem_append.mp h with h₁ | h₁
        · exact hInv.parent_lt i c j h₁
        · simp at h₁
          omega
      · rw [nget_allocChild_low a cur ch i hi hic] at h
        exact hInv.parent_lt i c j h
    · by_cases hieq : i = a.length
      · subst hieq
        rw [nget_allocChild_new a cur ch] at h
        exact absurd h (List.not_mem_nil _)
      · rw [nget_allocChild_ge a cur ch i (by omega)] at h
        exact absurd h (List.not_mem_nil _)
  · rw [hperm.nodup_iff]
    have hdisj : a.length ∉ childTargets a := fun hc =>
      absurd (hInv.target_ub _ hc) (by omega)
    simp [List.nodup_append, hInv.targets_nodup, hdisj]
  · intro j h2 hj
    rw [hlen] at hj
    rw [hmem j]
    by_cases hje : j = a.length
    · exact Or.inr hje
    · exact Or.inl (hInv.complete j h2 (by omega))
  · intro i
    by_cases hi : i < a.length
    · by_cases hic : i = cur
      · subst hic
        rw [nget_allocChild_cur a i ch hi]
        have hnotin : ch ∉ (nget a i).children.map Prod.fst :=
          (lookupChild_eq_none _ ch).mp hnone
        simp [List.nodup_append, hInv.keys_nodup i, hnotin]
      · rw [nget_allocChild_low a cur ch i hi hic]
        exact hInv.keys_nodup i
    · by_cases hieq : i = a.length
      · subst hieq
        rw [nget_allocChild_new a cur ch]
        exact List.nodup_nil
      · rw [nget_allocChild_ge a cur ch i (by omega)]
        exact List.nodup_nil

theorem arenaInv_insertFrom : ∀ (w : List Char) (a : List Node) (cur : Nat),
    ArenaInv a → cur < a.length → cur ≠ 1 → ArenaInv (insertFrom a cur w)
  | [], a, cur, hInv, hcur, hcur1 => arenaInv_set_final hInv cur hcur hcur1
  | ch :: rest, a, cur, hInv, hcur, hcur1 => by
    cases hl : lookupChild (nget a cur).children ch with
    | some j =>
      rw [insertFrom_cons_some rest hl]
      have hmem : j ∈ childTargets a :=
        mem_childTargets_of_edge a cur ch j (lookupChild_mem _ ch j hl)
      exact arenaInv_insertFrom rest a j hInv (hInv.target_ub j hmem)
        (by have := hInv.target_lb j hmem; omega)
    | none =>
      rw [insertFrom_cons_none rest hl]
      have hInv₁ := arenaInv_allocChild hInv cur ch hcur hcur1 hl
      exact arenaInv_insertFrom rest (allocChild a cur ch) a.length hInv₁
        (by rw [allocChild_length]; omega)
        (by have := hInv.two_le; omega)

theorem insertFrom_makes : ∀ (w : List Char) (a : List Node) (cur : Nat),
    ArenaInv a → cur < a.length → cur ≠ 1 →
    ∃ j, walk (insertFrom a cur w) cur w = some j ∧
      (nget (insertFrom a cur w) j).is_final = true
  | [], a, cur, _, hcur, _ => by
    refine ⟨cur, rfl, ?_⟩
    rw [insertFrom, nget_set_self a cur _ hcur]
  | ch :: rest, a, cur, hInv, hcur, hcur1 => by
    cases hl : lookupChild (nget a cur).children ch with
    | some j =>
      rw [insertFrom_cons_some rest hl]
      have hmem : j ∈ childTargets a :=
        mem_childTargets_of_edge a cur ch j (lookupChild_mem _ ch j hl)
      obtain ⟨f, hwalk, hfin⟩ := insertFrom_makes rest a j hInv
        (hInv.target_ub j hmem) (by have := hInv.target_lb j hmem; omega)
      refine ⟨f, ?_, hfin⟩
      unfold walk
      rw [(insertFrom_ext rest a j).2.1 cur ch j hl]
      exact hwalk
    | none =>
      rw [insertFrom_cons_none rest hl]
      have hInv₁ := arenaInv_allocChild hInv cur ch hcur hcur1 hl
      obtain ⟨f, hwalk, hfin⟩ := insertFrom_makes rest (allocChild a cur ch)
        a.length hInv₁ (by rw [allocChild_length]; omega)
        (by have := hInv.two_le; omega)
      refine ⟨f, ?_, hfin⟩
      unfold walk
      have hedge : lookupChild (nget (allocChild a cur ch) cur).children ch = some a.length := by
        rw [nget_allocChild_cur a cur ch hcur, lookupChild_append, hl]
        simp [lookupChild]
      rw [(insertFrom_ext rest (allocChild a cur ch) a.length).2.1 cur ch a.length hedge]
      exact hwalk

/-- The class-level invariant: arena invariant plus the root at index 0 and
the trap at index 1. -/
structure Inv (d : DFA) : Prop where
  arena : ArenaInv d.nodes
  root_eq : d.root = 0
  trap_eq : d.trap = 1

theorem nget_empty_children : ∀ i : Nat, (nget DFA.empty.nodes i).children = []
  | 0 => rfl
  | 1 => rfl
  | _ + 2 => rfl

theorem inv_empty : Inv DFA.empty := by
  refine ⟨⟨?_, ?_, ?_, ?_, ?_, ?_, ?_, ?_⟩, rfl, rfl⟩
  · exact Nat.le_refl 2
  · rfl
  · intro j hj
    have he : childTargets DFA.empty.nodes = [] := rfl
    rw [he] at hj
    exact absurd hj (List.not_mem_nil j)
  · intro j hj
    have he : childTargets DFA.empty.nodes = [] := rfl
    rw [he] at hj
    exact absurd hj (List.not_mem_nil j)
  · intro i c j h
    rw [nget_empty_children i] at h
    exact absurd h (List.not_mem_nil _)
  · decide
  · intro j h2 hj
    simp only [DFA.empty, List.length_cons, List.length_nil] at hj
    omega
  · intro i
    rw [nget_empty_children i]
    exact List.nodup_nil

theorem inv_insert {d : DFA} (hInv : Inv d) (w : List Char) : Inv (d.insert w) := by
  refine ⟨?_, hInv.root_eq, hInv.trap_eq⟩
  show ArenaInv (insertFrom d.nodes d.root w)
  exact arenaInv_insertFrom w d.nodes d.root hInv.arena
    (by rw [hInv.root_eq]; have := hInv.arena.two_le; omega)
    (by rw [hInv.root_eq]; omega)

theorem built_inv {d : DFA} (h : Built d) : Inv d := by
  induction h with
  | empty => exact inv_empty
  | insert d w _ ih => exact inv_insert ih w

theorem foldl_built : ∀ (l : List (List Char)) (d : DFA), Built d →
    Built (l.foldl DFA.insert d)
  | [], _, h => h
  | w :: l, d, h => foldl_built l (d.insert w) (Built.insert d w h)

theorem buildList_built (ws : List (List Char)) : Built (buildList ws) :=
  foldl_built ws DFA.empty Built.empty

/-- The path spelled by `w` exists from the root and ends in an accepting
node. -/
def WalkFinal (w : List Char) (d : DFA) : Prop :=
  ∃ j, walk d.nodes d.root w = some j ∧ (nget d.nodes j).is_final = true

theorem walkFinal_insert {w : List Char} {d : DFA} (v : List Char)
    (h : WalkFinal w d) : WalkFinal w (d.insert v) := by
  obtain ⟨j, hw, hf⟩ := h
  have hext : Ext d.nodes (d.insert v).nodes := insertFrom_ext v d.nodes d.root
  exact ⟨j, walk_mono hext w d.root j hw, hext.2.2 j hf⟩

theorem walkFinal_foldl {w : List Char} : ∀ (l : List (List Char)) (d : DFA),
    WalkFinal w d → WalkFinal w (l.foldl DFA.insert d)
  | [], _, h => h
  | v :: l, d, h => walkFinal_foldl l (d.insert v) (walkFinal_insert v h)

theorem insert_walkFinal {d : DFA} (hInv : Inv d) (w : List Char) :
    WalkFinal w (d.insert w) := by
  have h := insertFrom_makes w d.nodes d.root hInv.arena
    (by rw [hInv.root_eq]; have := hInv.arena.two_le; omega)
    (by rw [hInv.root_eq]; omega)
  exact h

theorem accepts_of_walk_final {d : DFA} (hInv : Inv d) {t : List Char} {j : Nat}
    (hw : walk d.nodes d.root (nonPunct t) = some j)
    (hf : (nget d.nodes j).is_final = true) : d.accepts t = true := by
  have haf : acceptsFrom d.nodes d.trap d.root t = j := acceptsFrom_of_walk t d.root j hw
  have hne : j ≠ 1 := walk_ne_one hInv.arena.target_lb (nonPunct t) d.root j
    (by rw [hInv.root_eq]; omega) hw
  have hacc : d.accepts t =
      if acceptsFrom d.nodes d.trap d.root t = d.trap then false
      else (nget d.nodes (acceptsFrom d.nodes d.trap d.root t)).is_final := rfl
  rw [hacc, haf, hInv.trap_eq, if_neg hne]
  exact hf

theorem buildList_append_foldl (l₁ l₂ : List (List Char)) :
    buildList (l₁ ++ l₂) = l₂.foldl DFA.insert (buildList l₁) := by
  unfold buildList
  rw [List.foldl_append]

theorem buildList_snoc (ws : List (List Char)) (w : List Char) :
    buildList (ws ++ [w]) = (buildList ws).insert w := by
  rw [buildList_append_foldl]
  rfl

/-- Any text whose non-punctuation subsequence is a word that was inserted
at some point is accepted. -/
theorem accepts_inserted (ws : List (List Char)) (w t : List Char)
    (hmem : w ∈ ws) (ht : nonPunct t = w) : (buildList ws).accepts t = true := by
  obtain ⟨l₁, l₂, rfl⟩ := List.append_of_mem hmem
  have h₁ : buildList (l₁ ++ w :: l₂) = l₂.foldl DFA.insert ((buildList l₁).insert w) := by
    rw [show l₁ ++ w :: l₂ = (l₁ ++ [w]) ++ l₂ by simp, buildList_append_foldl,
      buildList_snoc]
  have hWF : WalkFinal w ((buildList l₁).insert w) :=
    insert_walkFinal (built_inv (buildList_built l₁)) w
  have hWF₂ := walkFinal_foldl l₂ _ hWF
  rw [h₁]
  obtain ⟨j, hw, hf⟩ := hWF₂
  have hB : Built (l₂.foldl DFA.insert ((buildList l₁).insert w)) :=
    foldl_built l₂ _ (Built.insert _ w (buildList_built l₁))
  refine accepts_of_walk_final (built_inv hB) ?_ hf
  rw [ht]
  exact hw

theorem insertFrom_of_walk : ∀ (w : List Char) (a : List Node) (cur j : Nat),
    walk a cur w = some j → (nget a j).is_final = true → insertFrom a cur w = a
  | [], a, cur, j, hw, hf => by
    simp only [walk, Option.some_inj] at hw
    subst hw
    have hcur : cur < a.length := by
      by_contra hc
      rw [nget_of_ge a cur (Nat.le_of_not_lt hc)] at hf
      exact absurd hf (by simp)
    have heta : (⟨(nget a cur).children, true⟩ : Node) = nget a cur := by
      rw [← hf]
    rw [insertFrom, heta, set_nget_self]
  | ch :: rest, a, cur, j, hw, hf => by
    unfold walk at hw
    cases hl : lookupChild (nget a cur).children ch with
    | some j₁ =>
      rw [hl] at hw
      rw [insertFrom_cons_some rest hl]
      exact insertFrom_of_walk rest a j₁ j hw hf
    | none =>
      rw [hl] at hw
      exact absurd hw (by simp)

theorem acceptsFrom_fail : ∀ (pre : List Char) (a : List Node) (trap cur : Nat)
    (c : Char) (suf : List Char), isPunct c = false →
    lookupChild (nget a (acceptsFrom a trap cur pre)).children c = none →
    acceptsFrom a trap cur (pre ++ c :: suf) = trap
  | [], a, trap, cur, c, suf, hc, hnone => by
    have h : acceptsFrom a trap cur [] = cur := rfl
    rw [h] at hnone
    simp [acceptsFrom, hc, hnone]
  | p :: ps, a, trap, cur, c, suf, hc, hnone => by
    by_cases hp : isPunct p
    · have h : acceptsFrom a trap cur (p :: ps) = acceptsFrom a trap cur ps := by
        simp [acceptsFrom, hp]
      rw [h] at hnone
      have hstep : acceptsFrom a trap cur ((p :: ps) ++ c :: suf) =
          acceptsFrom a trap cur (ps ++ c :: suf) := by
        simp [acceptsFrom, hp]
      rw [hstep]
      exact acceptsFrom_fail ps a trap cur c suf hc hnone
    · cases hl : lookupChild (nget a cur).children p with
      | some j =>
        have h : acceptsFrom a trap cur (p :: ps) = acceptsFrom a trap j ps := by
          simp [acceptsFrom, hp, hl]
        rw [h] at hnone
        have hstep : acceptsFrom a trap cur ((p :: ps) ++ c :: suf) =
            acceptsFrom a trap j (ps ++ c :: suf) := by
          simp [acceptsFrom, hp, hl]
        rw [hstep]
        exact acceptsFrom_fail ps a trap j c suf hc hnone
      | none =>
        simp [acceptsFrom, hp, hl]

theorem acceptsFrom_all_punct : ∀ (t : List Char) (a : List Node) (trap cur : Nat),
    (∀ c ∈ t, isPunct c = true) → acceptsFrom a trap cur t = cur
  | [], _, _, _, _ => rfl
  | c :: rest, a, trap, cur, h => by
    have hc : isPunct c = true := h c (List.mem_cons_self c rest)
    have hrest : ∀ x ∈ rest, isPunct x = true := fun x hx => h x (List.mem_cons_of_mem c hx)
    simp [acceptsFrom, hc, acceptsFrom_all_punct rest a trap cur hrest]

/-- C1 (counterexample): the claim says that for every word over any symbol
alphabet, punctuation included, `accepts(w)` is true after `insert(w)`.  It
fails for the one-character word "," : `insert` stores the comma edge, but
`accepts` skips the comma (it is punctuation), ends at the non-accepting
root and returns false. -/
theorem C1_counterexample :
    DFA.accepts (DFA.insert DFA.empty [',']) [','] = false := by decide

/-- C1 (amended): for every word `w` containing no punctuation symbols,
after `insert(w)` on any automaton the class can build, `accepts(w)` is
true. -/
theorem C1_amended : ∀ (ws : List (List Char)) (w : List Char),
    (∀ c ∈ w, isPunct c = false) → ((buildList ws).insert w).accepts w = true := by
  intro ws w hw
  rw [← buildList_snoc]
  refine accepts_inserted (ws ++ [w]) w w ?_ ?_
  · exact List.mem_append_right ws (List.mem_singleton_self w)
  · refine List.filter_eq_self.mpr ?_
    intro c hc
    rw [hw c hc]
    rfl

/-- C1 witness: the amended theorem evaluated at `ws = []`, `w = "cat"`. -/
theorem C1_witness :
    (∀ c ∈ ['c', 'a', 't'], isPunct c = false) ∧
    ((buildList []).insert ['c', 'a', 't']).accepts ['c', 'a', 't'] = true :=
  ⟨by decide, C1_amended [] ['c', 'a', 't'] (by decide)⟩

/-- C3: for every automaton and every text `pre ++ c :: suf` where `c` is a
non-punctuation symbol for which the state reached after scanning `pre` has
no transition, `accepts` returns false, and this holds for every suffix
`suf`, punctuation or not: the walk enters the trap state and never leaves
it. -/
theorem C3_trap_absorbing : ∀ (d : DFA) (pre : List Char) (c : Char) (suf : List Char),
    isPunct c = false →
    lookupChild (nget d.nodes (acceptsFrom d.nodes d.trap d.root pre)).children c = none →
    d.accepts (pre ++ c :: suf) = false := by
  intro d pre c suf hc hnone
  have hfail := acceptsFrom_fail pre d.nodes d.trap d.root c suf hc hnone
  have hacc : d.accepts (pre ++ c :: suf) =
      if acceptsFrom d.nodes d.trap d.root (pre ++ c :: suf) = d.trap then false
      else (nget d.nodes (acceptsFrom d.nodes d.trap d.root (pre ++ c :: suf))).is_final := rfl
  rw [hacc, hfail, if_pos rfl]

/-- C3 witness: after inserting "a", the text "ab!a" fails at 'b' and is
rejected regardless of the suffix after 'b'. -/
theorem C3_witness :
    isPunct 'b' = false ∧
    lookupChild (nget (DFA.empty.insert ['a']).nodes
      (acceptsFrom (DFA.empty.insert ['a']).nodes (DFA.empty.insert ['a']).trap
        (DFA.empty.insert ['a']).root ['a'])).children 'b' = none ∧
    (DFA.empty.insert ['a']).accepts (['a'] ++ 'b' :: ['!', 'a']) = false :=
  ⟨by decide, by decide,
    C3_trap_absorbing (DFA.empty.insert ['a']) ['a'] 'b' ['!', 'a'] (by decide) (by decide)⟩

/-- C4: for every automaton built by insertions, every inserted word `w` and
every text whose non-punctuation subsequence equals `w` in order, `accepts`
returns true regardless of interspersed punctuation. -/
theorem C4_nonpunct_match : ∀ (ws : List (List Char)) (w t : List Char),
    w ∈ ws → nonPunct t = w → (buildList ws).accepts t = true := by
  intro ws w t hmem ht
  exact accepts_inserted ws w t hmem ht

/-- C4 witness: after `insert("cat")`, `accepts("c,a.t")` is true. -/
theorem C4_witness :
    ['c', 'a', 't'] ∈ [['c', 'a', 't']] ∧
    nonPunct ['c', ',', 'a', '.', 't'] = ['c', 'a', 't'] ∧
    (buildList [['c', 'a', 't']]).accepts ['c', ',', 'a', '.', 't'] = true :=
  ⟨by decide, by decide,
    C4_nonpunct_match [['c', 'a', 't']] ['c', 'a', 't'] ['c', ',', 'a', '.', 't']
      (by decide) (by decide)⟩

/-- C5: `insert` is idempotent on every automaton the class can build:
inserting `w` twice gives exactly the same automaton as inserting it once
(in particular the same node count), and hence the same `accepts` behavior
on every text. -/
theorem C5_insert_idempotent : ∀ (d : DFA), Built d → ∀ (w : List Char),
    (d.insert w).insert w = d.insert w ∧
    ((d.insert w).insert w).nodes.length = (d.insert w).nodes.length ∧
    ∀ t, ((d.insert w).insert w).accepts t = (d.insert w).accepts t := by
  intro d hB w
  obtain ⟨j, hw, hf⟩ := insert_walkFinal (built_inv hB) w
  have heq : (d.insert w).insert w = d.insert w := by
    show (⟨insertFrom (d.insert w).nodes (d.insert w).root w,
      (d.insert w).root, (d.insert w).trap⟩ : DFA) = d.insert w
    rw [insertFrom_of_walk w (d.insert w).nodes (d.insert w).root j hw hf]
  exact ⟨heq, by rw [heq], fun t => by rw [heq]⟩

/-- C5 witness: idempotence evaluated on the empty automaton and the word
"ab". -/
theorem C5_witness :
    (DFA.empty.insert ['a', 'b']).insert ['a', 'b'] = DFA.empty.insert ['a', 'b'] := by
  have h := C5_insert_idempotent DFA.empty Built.empty ['a', 'b']
  exact h.1

/-- C6: on every automaton the class can build, `accepts` of the empty text
and of any all-punctuation text equals the root's accepting flag, and on a
freshly constructed automaton `accepts("")` is false.  (The empty text is
the `t = []` instance of the quantifier.) -/
theorem C6_empty_and_punct :
    (∀ (d : DFA), Built d → ∀ (t : List Char), (∀ c ∈ t, isPunct c = true) →
      d.accepts t = (nget d.nodes d.root).is_final) ∧
    DFA.empty.accepts [] = false := by
  constructor
  · intro d hB t ht
    have hInv := built_inv hB
    have haf : acceptsFrom d.nodes d.trap d.root t = d.root :=
      acceptsFrom_all_punct t d.nodes d.trap d.root ht
    have hacc : d.accepts t =
        if acceptsFrom d.nodes d.trap d.root t = d.trap then false
        else (nget d.nodes (acceptsFrom d.nodes d.trap d.root t)).is_final := rfl
    rw [hacc, haf, hInv.trap_eq, hInv.root_eq]
    rw [if_neg (by omega : ¬(0 : Nat) = 1)]
  · decide

/-- C6 witness: the first component at the fresh automaton and the pure
punctuation text ",;". -/
theorem C6_witness :
    DFA.empty.accepts [',', ';'] = (nget DFA.empty.nodes DFA.empty.root).is_final :=
  C6_empty_and_punct.1 DFA.empty Built.empty [',', ';'] (by decide)

/-- C10: acceptance is monotone under insertion: for every automaton, any
text accepted before an `insert(w)` call is still accepted after it, since
insertion only adds transitions and only sets accepting flags to true. -/
theorem C10_accepts_monotone : ∀ (d : DFA) (t w : List Char),
    d.accepts t = true → (d.insert w).accepts t = true := by
  intro d t w h
  have hacc : d.accepts t =
      if acceptsFrom d.nodes d.trap d.root t = d.trap then false
      else (nget d.nodes (acceptsFrom d.nodes d.trap d.root t)).is_final := rfl
  rw [hacc] at h
  by_cases hne : acceptsFrom d.nodes d.trap d.root t = d.trap
  · rw [if_pos hne] at h
    exact absurd h (by simp)
  · rw [if_neg hne] at h
    have hw := acceptsFrom_to_walk t d.root hne
    have hext : Ext d.nodes (d.insert w).nodes := insertFrom_ext w d.nodes d.root
    have hw₂ : walk (d.insert w).nodes d.root (nonPunct t) =
        some (acceptsFrom d.nodes d.trap d.root t) := walk_mono hext _ _ _ hw
    have haf₂ : acceptsFrom (d.insert w).nodes d.trap d.root t =
        acceptsFrom d.nodes d.trap d.root t := acceptsFrom_of_walk t d.root _ hw₂
    have hacc₂ : (d.insert w).accepts t =
        if acceptsFrom (d.insert w).nodes d.trap d.root t = d.trap then false
        else (nget (d.insert w).nodes
          (acceptsFrom (d.insert w).nodes d.trap d.root t)).is_final := rfl
    rw [hacc₂, haf₂, if_neg hne]
    exact hext.2.2 _ h

/-- C10 witness: "a" is accepted after inserting "a", and still after
inserting "b". -/
theorem C10_witness :
    (DFA.empty.insert ['a']).accepts ['a'] = true ∧
    ((DFA.empty.insert ['a']).insert ['b']).accepts ['a'] = true :=
  ⟨by decide, C10_accepts_monotone (DFA.empty.insert ['a']) ['a'] ['b'] (by decide)⟩

/-- The id-assignment invariant of the BFS: the keys of `node_ids` are
exactly the discovered nodes in discovery order, their id numbers are
`0, 1, 2, …` in that order, and every queued node has been discovered. -/
def BfsP (st : BfsSt) : Prop :=
  st.ids.map Prod.fst = st.seen ∧
  st.ids.map Prod.snd = List.range st.seen.length ∧
  ∀ q ∈ st.queue, q ∈ st.seen

theorem lookupId_hit (ids : List (Nat × Nat)) (n : Nat)
    (h : n ∈ ids.map Prod.fst) : ∃ k, lookupId ids n = some k := by
  cases hlk : lookupId ids n with
  | none =>
    rw [lookupId_eq_none] at hlk
    exact absurd h hlk
  | some k => exact ⟨k, rfl⟩

theorem procChildren_bfsP (nid : String) : ∀ (children : List (Char × Nat)) (st : BfsSt),
    BfsP st → BfsP (procChildren nid children st)
  | [], _, h => h
  | (ch, child) :: rest, st, h => by
    obtain ⟨ids, seen, queue, lines⟩ := st
    obtain ⟨hfst, hsnd, hq⟩ := h
    simp only at hfst hsnd hq
    by_cases hc : child ∈ seen
    · obtain ⟨k, hk⟩ := lookupId_hit ids child (by rw [hfst]; exact hc)
      have hstep : procChildren nid ((ch, child) :: rest) ⟨ids, seen, queue, lines⟩ =
          procChildren nid rest
            ⟨ids, seen, queue, lines ++ [edgeLine nid (idStr k) (escapeLabel ch)]⟩ := by
        simp [procChildren, getId, hk, hc]
      rw [hstep]
      exact procChildren_bfsP nid rest _ ⟨hfst, hsnd, hq⟩
    · have hnone : lookupId ids child = none := by
        rw [lookupId_eq_none, hfst]
        exact hc
      have hstep : procChildren nid ((ch, child) :: rest) ⟨ids, seen, queue, lines⟩ =
          procChildren nid rest
            ⟨ids ++ [(child, ids.length)], seen ++ [child], queue ++ [child],
             lines ++ [edgeLine nid (idStr ids.length) (escapeLabel ch)]⟩ := by
        simp [procChildren, getId, hnone, hc]
      rw [hstep]
      refine procChildren_bfsP nid rest _ ⟨?_, ?_, ?_⟩
      · simp [hfst]
      · have hlen : ids.length = seen.length := by
          rw [← hfst, List.length_map]
        simp only [List.map_append, hsnd, List.length_append, List.length_cons,
          List.length_nil, List.map_cons, List.map_nil]
        rw [hlen, List.range_succ]
      · intro q hmem
        rcases List.mem_append.mp hmem with h₁ | h₁
        · exact List.mem_append_left _ (hq q h₁)
        · exact List.mem_append_right _ h₁

theorem bfsLoop_bfsP (a : List Node) : ∀ (fuel : Nat) (st : BfsSt),
    BfsP st → BfsP (bfsLoop a fuel st)
  | 0, _, h => h
  | fuel + 1, st, h => by
    obtain ⟨ids, seen, queue, lines⟩ := st
    obtain ⟨hfst, hsnd, hq⟩ := h
    simp only at hfst hsnd hq
    cases hqe : queue with
    | nil => simpa [bfsLoop] using And.intro hfst (And.intro hsnd (by simp))
    | cons node rest =>
      subst hqe
      have hnode : node ∈ seen := hq node (List.mem_cons_self node rest)
      obtain ⟨k, hk⟩ := lookupId_hit ids node (by rw [hfst]; exact hnode)
      have hstep : bfsLoop a (fuel + 1) ⟨ids, seen, node :: rest, lines⟩ =
          bfsLoop a fuel (procChildren (idStr k) (nget a node).children
            ⟨ids, seen, rest,
             if (nget a node).is_final then lines ++ [finalLine (idStr k)] else lines⟩) := by
        simp [bfsLoop, getId, hk]
      rw [hstep]
      refine bfsLoop_bfsP a fuel _ (procChildren_bfsP _ _ _ ⟨hfst, hsnd, ?_⟩)
      intro q hmem
      exact hq q (List.mem_cons_of_mem node hmem)

theorem toDotRun_bfsP (d : DFA) : BfsP d.toDotRun := by
  have h0 : BfsP ⟨[(d.root, 0)], [d.root], [d.root],
      preambleLines ++ [startDeclLine, startEdgeLine (idStr 0)]⟩ := by
    refine ⟨by simp, by simp [List.range_succ], by simp⟩
  have hrun : d.toDotRun = bfsLoop d.nodes d.nodes.length
      ⟨[(d.root, 0)], [d.root], [d.root],
       preambleLines ++ [startDeclLine, startEdgeLine (idStr 0)]⟩ := by
    simp [DFA.toDotRun, getId, lookupId]
  rw [hrun]
  exact bfsLoop_bfsP d.nodes d.nodes.length _ h0

theorem procChildren_seen_extend (nid : String) : ∀ (children : List (Char × Nat)) (st : BfsSt),
    ∃ e, (procChildren nid children st).seen = st.seen ++ e
  | [], st => ⟨[], by simp [procChildren]⟩
  | (ch, child) :: rest, st => by
    obtain ⟨ids, seen, queue, lines⟩ := st
    simp only [procChildren]
    by_cases hc : child ∈ seen
    · simp only [hc, if_true]
      exact procChildren_seen_extend nid rest _
    · simp only [hc, if_false]
      obtain ⟨e, he⟩ := procChildren_seen_extend nid rest
        ⟨(getId ids child).1, seen ++ [child], queue ++ [child],
         lines ++ [edgeLine nid (idStr (getId ids child).2) (escapeLabel ch)]⟩
      exact ⟨[child] ++ e, by simpa using he⟩

theorem bfsLoop_seen_extend (a : List Node) : ∀ (fuel : Nat) (st : BfsSt),
    ∃ e, (bfsLoop a fuel st).seen = st.seen ++ e
  | 0, st => ⟨[], by simp [bfsLoop]⟩
  | fuel + 1, st => by
    obtain ⟨ids, seen, queue, lines⟩ := st
    cases hqe : queue with
    | nil => exact ⟨[], by simp [bfsLoop]⟩
    | cons node rest =>
      simp only [bfsLoop]
      obtain ⟨e₁, he₁⟩ := procChildren_seen_extend (idStr (getId ids node).2)
        (nget a node).children
        ⟨(getId ids node).1, seen, rest,
         if (nget a node).is_final
           then lines ++ [finalLine (idStr (getId ids node).2)] else lines⟩
      obtain ⟨e₂, he₂⟩ := bfsLoop_seen_extend a fuel
        (procChildren (idStr (getId ids node).2) (nget a node).children
          ⟨(getId ids node).1, seen, rest,
           if (nget a node).is_final
             then lines ++ [finalLine (idStr (getId ids node).2)] else lines⟩)
      refine ⟨e₁ ++ e₂, ?_⟩
      simp only at he₁
      rw [he₂, he₁, List.append_assoc]

theorem toDotSeen_head (d : DFA) : d.toDotSeen.head? = some d.root := by
  have hrun : d.toDotRun = bfsLoop d.nodes d.nodes.length
      ⟨[(d.root, 0)], [d.root], [d.root],
       preambleLines ++ [startDeclLine, startEdgeLine (idStr 0)]⟩ := by
    simp [DFA.toDotRun, getId, lookupId]
  obtain ⟨e, he⟩ := bfsLoop_seen_extend d.nodes d.nodes.length
    ⟨[(d.root, 0)], [d.root], [d.root],
     preambleLines ++ [startDeclLine, startEdgeLine (idStr 0)]⟩
  unfold DFA.toDotSeen
  rw [hrun, he]
  rfl

/-- C2: in `to_dot`, the root is assigned identifier 0 (`Q0`) and every
other node receives the next sequential number at the moment it is first
discovered during the BFS (as the target of an edge, transitions in
insertion order), so the keys of the id map are exactly the discovery-order
list of nodes, and the id numbers are `0, 1, 2, …` in that order; the first
discovered node is the root. -/
theorem C2_ids_discovery_order : ∀ (d : DFA),
    d.toDotIds.map Prod.fst = d.toDotSeen ∧
    d.toDotIds.map Prod.snd = List.range d.toDotSeen.length ∧
    d.toDotSeen.head? = some d.root := by
  intro d
  obtain ⟨h₁, h₂, _⟩ := toDotRun_bfsP d
  exact ⟨h₁, h₂, toDotSeen_head d⟩

theorem procChildren_seen_avoid (v : Nat) (nid : String) :
    ∀ (children : List (Char × Nat)) (st : BfsSt),
    (∀ p ∈ children, p.2 ≠ v) → (∀ x ∈ st.seen, x ≠ v) →
    ∀ x ∈ (procChildren nid children st).seen, x ≠ v
  | [], st, _, hseen => by simpa [procChildren] using hseen
  | (ch, child) :: rest, st, hch, hseen => by
    obtain ⟨ids, seen, queue, lines⟩ := st
    simp only [procChildren]
    have hrest : ∀ p ∈ rest, p.2 ≠ v := fun p hp => hch p (List.mem_cons_of_mem _ hp)
    by_cases hc : child ∈ seen
    · simp only [hc, if_true]
      exact procChildren_seen_avoid v nid rest _ hrest hseen
    · simp only [hc, if_false]
      refine procChildren_seen_avoid v nid rest _ hrest ?_
      intro x hx
      rcases List.mem_append.mp hx with h₁ | h₁
      · exact hseen x h₁
      · have hx₁ : x = child := by simpa using h₁
        subst hx₁
        exact hch (ch, x) (List.mem_cons_self _ _)

theorem bfsLoop_seen_avoid (a : List Node) (v : Nat)
    (htargets : ∀ j ∈ childTargets a, j ≠ v) :
    ∀ (fuel : Nat) (st : BfsSt), (∀ x ∈ st.seen, x ≠ v) →
    ∀ x ∈ (bfsLoop a fuel st).seen, x ≠ v
  | 0, st, hseen => by simpa [bfsLoop] using hseen
  | fuel + 1, st, hseen => by
    obtain ⟨ids, seen, queue, lines⟩ := st
    cases hqe : queue with
    | nil => simpa [bfsLoop] using hseen
    | cons node rest =>
      simp only [bfsLoop]
      refine bfsLoop_seen_avoid a v htargets fuel _
        (procChildren_seen_avoid v _ _ _ ?_ hseen)
      intro p hp
      refine htargets p.2 ?_
      exact mem_childTargets_of_edge a node p.1 p.2 (by simpa using hp)

theorem toDotSeen_avoid_trap {d : DFA} (hB : Built d) : d.trap ∉ d.toDotSeen := by
  have hInv := built_inv hB
  have hrun : d.toDotRun = bfsLoop d.nodes d.nodes.length
      ⟨[(d.root, 0)], [d.root], [d.root],
       preambleLines ++ [startDeclLine, startEdgeLine (idStr 0)]⟩ := by
    simp [DFA.toDotRun, getId, lookupId]
  have htargets : ∀ j ∈ childTargets d.nodes, j ≠ d.trap := by
    intro j hj
    have := hInv.arena.target_lb j hj
    rw [hInv.trap_eq]
    omega
  have hseen0 : ∀ x ∈ [d.root], x ≠ d.trap := by
    intro x hx
    have hx₁ : x = d.root := by simpa using hx
    subst hx₁
    rw [hInv.root_eq, hInv.trap_eq]
    omega
  intro hc
  unfold DFA.toDotSeen at hc
  rw [hrun] at hc
  exact bfsLoop_seen_avoid d.nodes d.trap htargets d.nodes.length _ hseen0 d.trap hc rfl

/-- C7: on every automaton the class can build, the sink (trap) node is
unchanged since construction (empty transitions, non-accepting), it is never
the target of any stored transition (hence unreachable from the root), it is
never discovered by the export BFS, and it is never assigned an identifier
in the export's id map, so it never appears in the output. -/
theorem C7_sink_invariant : ∀ (d : DFA), Built d →
    nget d.nodes d.trap = ⟨[], false⟩ ∧
    (∀ j ∈ childTargets d.nodes, j ≠ d.trap) ∧
    d.trap ∉ d.toDotSeen ∧
    d.trap ∉ d.toDotIds.map Prod.fst := by
  intro d hB
  have hInv := built_inv hB
  refine ⟨?_, ?_, toDotSeen_avoid_trap hB, ?_⟩
  · rw [hInv.trap_eq]
    exact hInv.arena.trap_empty
  · intro j hj
    have := hInv.arena.target_lb j hj
    rw [hInv.trap_eq]
    omega
  · show d.trap ∉ d.toDotRun.ids.map Prod.fst
    rw [(toDotRun_bfsP d).1]
    exact toDotSeen_avoid_trap hB

/-- C7 witness: the sink invariant evaluated on the fresh automaton. -/
theorem C7_witness :
    nget DFA.empty.nodes DFA.empty.trap = ⟨[], false⟩ ∧
    (∀ j ∈ childTargets DFA.empty.nodes, j ≠ DFA.empty.trap) ∧
    DFA.empty.trap ∉ DFA.empty.toDotSeen ∧
    DFA.empty.trap ∉ DFA.empty.toDotIds.map Prod.fst :=
  C7_sink_invariant DFA.empty Built.empty

/-- Boolean list-prefix test (first list is a prefix of the second). -/
def prefixOfL : List Char → List Char → Bool
  | [], _ => true
  | _ :: _, [] => false
  | a :: as, b :: bs => (a = b) && prefixOfL as bs

theorem prefixOfL_append_self : ∀ (p x : List Char), prefixOfL p (p ++ x) = true
  | [], _ => rfl
  | a :: as, x => by simp [prefixOfL, prefixOfL_append_self as x]

/-- `l` starts with `pat`. -/
def strStarts (l pat : String) : Bool := prefixOfL pat.data l.data

/-- `l` ends with `pat`. -/
def strEnds (l pat : String) : Bool := prefixOfL pat.data.reverse l.data.reverse

/-- A start-marker edge line of the DOT output. -/
def isStartEdge (l : String) : Bool := strStarts l "  __start__ -> "

/-- The constant tail of a doublecircle (accepting style) line. -/
def finalStyleTail : String :=
  " [shape=doublecircle, style=filled, fillcolor=\"#66CC66\", color=\"#339933\", fontcolor=\"white\"];"

/-- An accepting-style (doublecircle) directive line of the DOT output. -/
def isFinalStyle (l : String) : Bool := strEnds l finalStyleTail

theorem finalLine_eq (nid : String) : finalLine nid = "  " ++ nid ++ finalStyleTail := rfl

theorem idStr_data (k : Nat) : (idStr k).data = 'Q' :: (Nat.repr k).data := by
  simp [idStr, String.data_append]

theorem isFinalStyle_finalLine (nid : String) : isFinalStyle (finalLine nid) = true := by
  unfold isFinalStyle strEnds
  rw [finalLine_eq, String.data_append, String.data_append, List.reverse_append]
  exact prefixOfL_append_self _ _

theorem isFinalStyle_edgeLine (nid cid : String) (c : Char) :
    isFinalStyle (edgeLine nid cid (escapeLabel c)) = false := by
  unfold isFinalStyle strEnds edgeLine escapeLabel
  by_cases h92 : c.toNat = 92
  · rw [if_pos h92]
    simp only [String.data_append, List.reverse_append]
    simp [finalStyleTail, prefixOfL]
  · rw [if_neg h92]
    by_cases h34 : c.toNat = 34
    · rw [if_pos h34]
      simp only [String.data_append, List.reverse_append]
      simp [finalStyleTail, prefixOfL]
    · rw [if_neg h34]
      have hsing : (String.singleton c).data = [c] := rfl
      simp only [String.data_append, List.reverse_append, hsing]
      simp [finalStyleTail, prefixOfL]

theorem isStartEdge_finalLine (k : Nat) : isStartEdge (finalLine (idStr k)) = false := by
  unfold isStartEdge strStarts
  rw [finalLine_eq, String.data_append, String.data_append, idStr_data]
  simp [prefixOfL]

theorem isStartEdge_edgeLine (k : Nat) (cid label : String) :
    isStartEdge (edgeLine (idStr k) cid label) = false := by
  unfold isStartEdge strStarts edgeLine
  simp only [String.data_append, idStr_data]
  simp [prefixOfL]

example : isStartEdge (startEdgeLine (idStr 0)) = true := by decide

example : isFinalStyle (finalLine (idStr 3)) = true := by decide

example : isFinalStyle (edgeLine (idStr 0) (idStr 1) (escapeLabel 'e')) = false := by decide

theorem nodup_snoc {α : Type _} (l : List α) (x : α) (h : l.Nodup) (hx : x ∉ l) :
    (l ++ [x]).Nodup := by
  rw [List.nodup_append]
  refine ⟨h, List.nodup_singleton x, ?_⟩
  intro a ha hb
  have : a = x := by simpa using hb
  subst this
  exact hx ha

/-- One pass of the child loop: `seen` and `queue` are extended by the same
list of newly discovered children, every emitted line is a labeled edge line,
every newly discovered node is a target of one of the processed transitions,
every processed transition target ends up in `seen`, and `Nodup` of `seen`
is preserved. -/
theorem procChildren_main (nid : String) : ∀ (children : List (Char × Nat)) (st : BfsSt),
    ∃ enew el,
      (procChildren nid children st).seen = st.seen ++ enew ∧
      (procChildren nid children st).queue = st.queue ++ enew ∧
      (procChildren nid children st).lines = st.lines ++ el ∧
      (∀ l ∈ el, ∃ k c, l = edgeLine nid (idStr k) (escapeLabel c)) ∧
      (∀ x ∈ enew, ∃ q ∈ children, q.2 = x) ∧
      (∀ q ∈ children, q.2 ∈ (procChildren nid children st).seen) ∧
      (st.seen.Nodup → (st.seen ++ enew).Nodup)
  | [], st => by
    refine ⟨[], [], by simp [procChildren], by simp [procChildren],
      by simp [procChildren], by simp, by simp, by simp, fun h => by simpa using h⟩
  | (ch, child) :: rest, st => by
    obtain ⟨ids, seen, queue, lines⟩ := st
    by_cases hc : child ∈ seen
    · have hstep : procChildren nid ((ch, child) :: rest) ⟨ids, seen, queue, lines⟩ =
          procChildren nid rest
            ⟨(getId ids child).1, seen, queue,
             lines ++ [edgeLine nid (idStr (getId ids child).2) (escapeLabel ch)]⟩ := by
        simp [procChildren, hc]
      obtain ⟨enew, el, h1, h2, h3, h4, h5, h6, h7⟩ := procChildren_main nid rest
        ⟨(getId ids child).1, seen, queue,
         lines ++ [edgeLine nid (idStr (getId ids child).2) (escapeLabel ch)]⟩
      rw [hstep]
      refine ⟨enew, edgeLine nid (idStr (getId ids child).2) (escapeLabel ch) :: el,
        h1, h2, ?_, ?_, ?_, ?_, h7⟩
      · rw [h3, List.append_assoc]
        rfl
      · intro l hl
        rcases List.mem_cons.mp hl with h | h
        · exact ⟨(getId ids child).2, ch, h⟩
        · exact h4 l h
      · intro x hx
        obtain ⟨q, hq, hqx⟩ := h5 x hx
        exact ⟨q, List.mem_cons_of_mem _ hq, hqx⟩
      · intro q hq
        rcases List.mem_cons.mp hq with h | h
        · rw [h1]
          subst h
          exact List.mem_append_left _ hc
        · exact h6 q h
    · have hstep : procChildren nid ((ch, child) :: rest) ⟨ids, seen, queue, lines⟩ =
          procChildren nid rest
            ⟨(getId ids child).1, seen ++ [child], queue ++ [child],
             lines ++ [edgeLine nid (idStr (getId ids child).2) (escapeLabel ch)]⟩ := by
        simp [procChildren, hc]
      obtain ⟨enew, el, h1, h2, h3, h4, h5, h6, h7⟩ := procChildren_main nid rest
        ⟨(getId ids child).1, seen ++ [child], queue ++ [child],
         lines ++ [edgeLine nid (idStr (getId ids child).2) (escapeLabel ch)]⟩
      rw [hstep]
      refine ⟨child :: enew, edgeLine nid (idStr (getId ids child).2) (escapeLabel ch) :: el,
        ?_, ?_, ?_, ?_, ?_, ?_, ?_⟩
      · rw [h1, List.append_assoc]
        rfl
      · rw [h2, List.append_assoc]
        rfl
      · rw [h3, List.append_assoc]
        rfl
      · intro l hl
        rcases List.mem_cons.mp hl with h | h
        · exact ⟨(getId ids child).2, ch, h⟩
        · exact h4 l h
      · intro x hx
        rcases List.mem_cons.mp hx with h | h
        · exact ⟨(ch, child), List.mem_cons_self _ _, h.symm⟩
        · obtain ⟨q, hq, hqx⟩ := h5 x h
          exact ⟨q, List.mem_cons_of_mem _ hq, hqx⟩
      · intro q hq
        rcases List.mem_cons.mp hq with h | h
        · rw [h1]
          subst h
          exact List.mem_append_left _ (List.mem_append_right _ (List.mem_singleton_self _))
        · exact h6 q h
      · intro hnd
        have hnd₁ : (seen ++ [child]).Nodup := nodup_snoc seen child hnd hc
        have := h7 hnd₁
        rw [List.append_assoc] at this
        exact this

theorem seen_card_le (N : Nat) (hN : 2 ≤ N) (l : List Nat) (hnd : l.Nodup)
    (hr : ∀ x ∈ l, x = 0 ∨ (2 ≤ x ∧ x < N)) : l.length ≤ N - 1 := by
  have hsub : l.toFinset ⊆ insert 0 (Finset.Ico 2 N) := by
    intro x hx
    rw [List.mem_toFinset] at hx
    rcases hr x hx with h | h
    · simp [h]
    · simp only [Finset.mem_insert, Finset.mem_Ico]
      omega
  have hcard := Finset.card_le_card hsub
  rw [List.toFinset_card_of_nodup hnd] at hcard
  have h0 : (0 : Nat) ∉ Finset.Ico 2 N := by simp
  rw [Finset.card_insert_of_not_mem h0, Nat.card_Ico] at hcard
  omega

/-- Any set of nodes containing the root and closed under stored transitions
contains every non-trap node: each node with index at least 2 has a unique
parent edge from a strictly smaller non-trap index. -/
theorem seen_complete {a : List Node} (hInv : ArenaInv a) (S : List Nat)
    (h0 : 0 ∈ S) (hcl : ∀ i ∈ S, ∀ q ∈ (nget a i).children, q.2 ∈ S) :
    ∀ j, j = 0 ∨ (2 ≤ j ∧ j < a.length) → j ∈ S := by
  intro j
  induction j using Nat.strong_induction_on with
  | _ j ih =>
    intro hj
    rcases hj with rfl | hj₂
    · exact h0
    · have hmem : j ∈ childTargets a := hInv.complete j hj₂.1 hj₂.2
      obtain ⟨i, hi, c, hedge⟩ := exists_edge_of_mem_childTargets a j hmem
      have hij : i < j := hInv.parent_lt i c j hedge
      have hi1 : i ≠ 1 := by
        intro h
        subst h
        rw [hInv.trap_empty] at hedge
        exact absurd hedge (List.not_mem_nil _)
      have hiS : i ∈ S := ih i hij (by omega)
      exact hcl i hiS (c, j) hedge

/-- The full BFS loop run to completion, on an arena satisfying the class
invariant: every emitted line is a doublecircle line or an edge line, one
doublecircle line is emitted per dequeued accepting node, the queue empties
within the fuel, and the final `seen` list is duplicate-free, contains only
root or real nodes, and is closed under transitions. -/
theorem bfsLoop_main {a : List Node} (hInv : ArenaInv a) :
    ∀ (fuel : Nat) (st : BfsSt) (p : List Nat),
    st.seen = p ++ st.queue →
    st.seen.Nodup →
    (∀ x ∈ st.seen, x = 0 ∨ (2 ≤ x ∧ x < a.length)) →
    (∀ i ∈ p, ∀ q ∈ (nget a i).children, q.2 ∈ st.seen) →
    a.length ≤ fuel + p.length + 1 →
    ∃ ext,
      (bfsLoop a fuel st).lines = st.lines ++ ext ∧
      ext.countP isFinalStyle + p.countP (fun n => (nget a n).is_final) =
        (bfsLoop a fuel st).seen.countP (fun n => (nget a n).is_final) ∧
      (∀ l ∈ ext, (∃ k, l = finalLine (idStr k)) ∨
        ∃ k₁ k₂ c, l = edgeLine (idStr k₁) (idStr k₂) (escapeLabel c)) ∧
      (bfsLoop a fuel st).seen.Nodup ∧
      (∀ x ∈ (bfsLoop a fuel st).seen, x = 0 ∨ (2 ≤ x ∧ x < a.length)) ∧
      (∀ i ∈ (bfsLoop a fuel st).seen, ∀ q ∈ (nget a i).children,
        q.2 ∈ (bfsLoop a fuel st).seen)
  | 0, st, p, hconf, hnd, hrange, hclosed, hfuel => by
    have hlen : st.seen.length = p.length + st.queue.length := by
      rw [hconf, List.length_append]
    have hcard := seen_card_le a.length hInv.two_le st.seen hnd hrange
    have h2 := hInv.two_le
    have hq : st.queue = [] := List.length_eq_zero.mp (by omega)
    have hres : bfsLoop a 0 st = st := rfl
    have hseen : st.seen = p := by
      rw [hconf, hq, List.append_nil]
    refine ⟨[], by simp [hres], ?_, by simp, ?_, ?_, ?_⟩
    · rw [hres, hseen]
      simp
    · rw [hres]
      exact hnd
    · rw [hres]
      exact hrange
    · rw [hres, hseen]
      intro i hi q hqc
      rw [← hseen] at hclosed ⊢
      exact hclosed i (by rwa [hseen]) q hqc
  | fuel + 1, st, p, hconf, hnd, hrange, hclosed, hfuel => by
    obtain ⟨ids, seen, queue, lines⟩ := st
    cases queue with
    | nil =>
      have hres : bfsLoop a (fuel + 1) ⟨ids, seen, [], lines⟩ =
          ⟨ids, seen, [], lines⟩ := by
        simp [bfsLoop]
      simp only at hconf hnd hrange hclosed
      have hseen : seen = p := by
        rw [hconf, List.append_nil]
      refine ⟨[], by simp [hres], ?_, by simp, ?_, ?_, ?_⟩
      · rw [hres, hseen]
        simp
      · rw [hres]
        exact hnd
      · rw [hres]
        exact hrange
      · rw [hres]
        intro i hi q hqc
        exact hclosed i (by rwa [hseen] at hi) q hqc
    | cons node rest =>
      simp only at hconf hnd hrange hclosed
      have hstep : bfsLoop a (fuel + 1) ⟨ids, seen, node :: rest, lines⟩ =
          bfsLoop a fuel (procChildren (idStr (getId ids node).2) (nget a node).children
            ⟨(getId ids node).1, seen, rest,
             if (nget a node).is_final
               then lines ++ [finalLine (idStr (getId ids node).2)] else lines⟩) := by
        simp [bfsLoop]
      obtain ⟨enew, el, hs1, hs2, hs3, hs4, hs5, hs6, hs7⟩ :=
        procChildren_main (idStr (getId ids node).2) (nget a node).children
          ⟨(getId ids node).1, seen, rest,
           if (nget a node).is_final
             then lines ++ [finalLine (idStr (getId ids node).2)] else lines⟩
      simp only at hs1 hs2 hs3 hs4 hs5 hs6 hs7
      have hrangeE : ∀ x ∈ enew, 2 ≤ x ∧ x < a.length := by
        intro x hx
        obtain ⟨q, hq, hqx⟩ := hs5 x hx
        have hct : x ∈ childTargets a := by
          subst hqx
          exact mem_childTargets_of_edge a node q.1 q.2 (by simpa using hq)
        exact ⟨hInv.target_lb x hct, hInv.target_ub x hct⟩
      have hconf₂ : seen ++ enew = (p ++ [node]) ++ (rest ++ enew) := by
        rw [hconf]
        simp [List.append_assoc]
      obtain ⟨ext₂, hi1, hi2, hi3, hi4, hi5, hi6⟩ :=
        bfsLoop_main hInv fuel
          (procChildren (idStr (getId ids node).2) (nget a node).children
            ⟨(getId ids node).1, seen, rest,
             if (nget a node).is_final
               then lines ++ [finalLine (idStr (getId ids node).2)] else lines⟩)
          (p ++ [node])
          (by rw [hs1, hs2]; exact hconf₂)
          (by rw [hs1]; exact hs7 hnd)
          (by
            rw [hs1]
            intro x hx
            rcases List.mem_append.mp hx with h | h
            · exact hrange x h
            · exact Or.inr (hrangeE x h))
          (by
            rw [hs1]
            intro i hi q hqc
            rcases List.mem_append.mp hi with h | h
            · exact List.mem_append_left _ (hclosed i h q hqc)
            · have hin : i = node := by simpa using h
              subst hin
              rw [← hs1]
              exact hs6 q hqc)
          (by
            rw [List.length_append, List.length_cons, List.length_nil]
            omega)
      rw [hstep]
      refine ⟨(if (nget a node).is_final then [finalLine (idStr (getId ids node).2)]
          else []) ++ el ++ ext₂, ?_, ?_, ?_, hi4, hi5, hi6⟩
      · rw [hi1, hs3]
        by_cases hf : (nget a node).is_final
        · simp [hf, List.append_assoc]
        · simp [hf, List.append_assoc]
      · have hcel : el.countP isFinalStyle = 0 := by
          rw [List.countP_eq_zero]
          intro l hl
          obtain ⟨k, c, rfl⟩ := hs4 l hl
          simp [isFinalStyle_edgeLine]
        have hcif : ((if (nget a node).is_final
            then [finalLine (idStr (getId ids node).2)] else []) : List String).countP
              isFinalStyle = if (nget a node).is_final then 1 else 0 := by
          by_cases hf : (nget a node).is_final
          · simp [hf, List.countP_cons, isFinalStyle_finalLine]
          · simp [hf]
        have hpcount : (p ++ [node]).countP (fun n => (nget a n).is_final) =
            p.countP (fun n => (nget a n).is_final) +
              (if (nget a node).is_final then 1 else 0) := by
          rw [List.countP_append]
          by_cases hf : (nget a node).is_final
          · simp [hf, List.countP_cons]
          · simp [hf, List.countP_cons]
        rw [List.countP_append, List.countP_append, hcel, hcif]
        rw [hpcount] at hi2
        omega
      · intro l hl
        rcases List.mem_append.mp hl with h | h
        · rcases List.mem_append.mp h with h₁ | h₁
          · by_cases hf : (nget a node).is_final
            · rw [if_pos hf] at h₁
              have : l = finalLine (idStr (getId ids node).2) := by simpa using h₁
              exact Or.inl ⟨(getId ids node).2, this⟩
            · rw [if_neg hf] at h₁
              exact absurd h₁ (List.not_mem_nil l)
          · obtain ⟨k, c, rfl⟩ := hs4 l h₁
            exact Or.inr ⟨(getId ids node).2, k, c, rfl⟩
        · exact hi3 l h

/-- The canonical list of all exportable node indices: the root plus every
index from 2 up. -/
def realNodes (N : Nat) : List Nat := 0 :: List.range' 2 (N - 2)

theorem mem_realNodes (N : Nat) (hN : 2 ≤ N) (x : Nat) :
    x ∈ realNodes N ↔ (x = 0 ∨ (2 ≤ x ∧ x < N)) := by
  simp only [realNodes, List.mem_cons, List.mem_range']
  constructor
  · rintro (rfl | ⟨i, hi, rfl⟩)
    · exact Or.inl rfl
    · omega
  · rintro (rfl | h)
    · exact Or.inl rfl
    · exact Or.inr ⟨x - 2, by omega, by omega⟩

theorem nodup_realNodes (N : Nat) : (realNodes N).Nodup := by
  refine List.nodup_cons.mpr ⟨?_, List.nodup_range' 2 (N - 2)⟩
  intro h
  obtain ⟨i, hi, hx⟩ := List.mem_range'.mp h
  omega

theorem toDotRun_main (d : DFA) (hB : Built d) :
    ∃ ext,
      d.toDotRun.lines =
        (preambleLines ++ [startDeclLine, startEdgeLine (idStr 0)]) ++ ext ∧
      (∀ l ∈ ext, (∃ k, l = finalLine (idStr k)) ∨
        ∃ k₁ k₂ c, l = edgeLine (idStr k₁) (idStr k₂) (escapeLabel c)) ∧
      ext.countP isFinalStyle =
        (List.range d.nodes.length).countP (fun j => (nget d.nodes j).is_final) := by
  have hInv := built_inv hB
  have hrun : d.toDotRun = bfsLoop d.nodes d.nodes.length
      ⟨[(d.root, 0)], [d.root], [d.root],
       preambleLines ++ [startDeclLine, startEdgeLine (idStr 0)]⟩ := by
    simp [DFA.toDotRun, getId, lookupId]
  obtain ⟨ext, h1, h2, h3, h4, h5, h6⟩ := bfsLoop_main hInv.arena d.nodes.length
    ⟨[(d.root, 0)], [d.root], [d.root],
     preambleLines ++ [startDeclLine, startEdgeLine (idStr 0)]⟩ []
    (by simp)
    (by simp)
    (by
      intro x hx
      have hx₁ : x = d.root := by simpa using hx
      subst hx₁
      rw [hInv.root_eq]
      exact Or.inl rfl)
    (by simp)
    (by simp)
  rw [← hrun] at h1 h2 h4 h5 h6
  refine ⟨ext, h1, h3, ?_⟩
  have hroot : 0 ∈ d.toDotRun.seen := by
    obtain ⟨e, he⟩ := bfsLoop_seen_extend d.nodes d.nodes.length
      ⟨[(d.root, 0)], [d.root], [d.root],
       preambleLines ++ [startDeclLine, startEdgeLine (idStr 0)]⟩
    rw [← hrun] at he
    rw [he]
    rw [hInv.root_eq] at he ⊢
    exact List.mem_append_left _ (List.mem_singleton_self 0)
  have hmemiff : ∀ x, x ∈ d.toDotRun.seen ↔ (x = 0 ∨ (2 ≤ x ∧ x < d.nodes.length)) := by
    intro x
    constructor
    · exact h5 x
    · exact seen_complete hInv.arena d.toDotRun.seen hroot h6 x
  have hN := hInv.arena.two_le
  have hperm1 : List.Perm d.toDotRun.seen (realNodes d.nodes.length) := by
    rw [List.perm_ext_iff_of_nodup h4 (nodup_realNodes _)]
    intro x
    rw [hmemiff x, mem_realNodes _ hN x]
  have hperm2 : List.Perm (List.range d.nodes.length) (1 :: realNodes d.nodes.length) := by
    refine (List.perm_ext_iff_of_nodup (List.nodup_range _) ?_).mpr ?_
    · refine List.nodup_cons.mpr ⟨?_, nodup_realNodes _⟩
      rw [mem_realNodes _ hN]
      omega
    · intro x
      rw [List.mem_range, List.mem_cons, mem_realNodes _ hN]
      omega
  have hfinal1 : ((nget d.nodes 1).is_final : Bool) = false := by
    rw [hInv.arena.trap_empty]
  have hcr : (List.range d.nodes.length).countP (fun j => (nget d.nodes j).is_final) =
      (realNodes d.nodes.length).countP (fun j => (nget d.nodes j).is_final) := by
    rw [hperm2.countP_eq]
    simp [List.countP_cons, hfinal1]
  rw [hcr, ← hperm1.countP_eq]
  rw [List.countP_nil] at h2
  omega

theorem joinSep_head (sep x y : String) (t : List String) :
    joinSep sep (x :: y :: t) = x ++ (sep ++ joinSep sep (y :: t)) := by
  rw [joinSep, String.append_assoc]

theorem lookupId_append_some : ∀ (ids e : List (Nat × Nat)) (n k : Nat),
    lookupId ids n = some k → lookupId (ids ++ e) n = some k
  | [], _, _, _, h => absurd h (by simp [lookupId])
  | (m, v) :: rest, e, n, k, h => by
    rw [List.cons_append]
    unfold lookupId at h ⊢
    by_cases he : n = m
    · rw [if_pos he] at h ⊢
      exact h
    · rw [if_neg he] at h ⊢
      exact lookupId_append_some rest e n k h

theorem getId_fst_extend (ids : List (Nat × Nat)) (n : Nat) :
    ∃ e, (getId ids n).1 = ids ++ e := by
  unfold getId
  cases hl : lookupId ids n with
  | some k => exact ⟨[], by simp⟩
  | none => exact ⟨[(n, ids.length)], rfl⟩

theorem procChildren_ids_extend (nid : String) : ∀ (children : List (Char × Nat)) (st : BfsSt),
    ∃ e, (procChildren nid children st).ids = st.ids ++ e
  | [], st => ⟨[], by simp [procChildren]⟩
  | (ch, child) :: rest, st => by
    obtain ⟨ids, seen, queue, lines⟩ := st
    obtain ⟨e₀, he₀⟩ := getId_fst_extend ids child
    simp only [procChildren]
    by_cases hc : child ∈ seen
    · simp only [hc, if_true]
      obtain ⟨e₁, he₁⟩ := procChildren_ids_extend nid rest
        ⟨(getId ids child).1, seen, queue,
         lines ++ [edgeLine nid (idStr (getId ids child).2) (escapeLabel ch)]⟩
      refine ⟨e₀ ++ e₁, ?_⟩
      simp only at he₁
      rw [he₁, he₀, List.append_assoc]
    · simp only [hc, if_false]
      obtain ⟨e₁, he₁⟩ := procChildren_ids_extend nid rest
        ⟨(getId ids child).1, seen ++ [child], queue ++ [child],
         lines ++ [edgeLine nid (idStr (getId ids child).2) (escapeLabel ch)]⟩
      refine ⟨e₀ ++ e₁, ?_⟩
      simp only at he₁
      rw [he₁, he₀, List.append_assoc]

theorem bfsLoop_ids_extend (a : List Node) : ∀ (fuel : Nat) (st : BfsSt),
    ∃ e, (bfsLoop a fuel st).ids = st.ids ++ e
  | 0, st => ⟨[], by simp [bfsLoop]⟩
  | fuel + 1, st => by
    obtain ⟨ids, seen, queue, lines⟩ := st
    cases hqe : queue with
    | nil => exact ⟨[], by simp [bfsLoop]⟩
    | cons node rest =>
      simp only [bfsLoop]
      obtain ⟨e₀, he₀⟩ := getId_fst_extend ids node
      obtain ⟨e₁, he₁⟩ := procChildren_ids_extend (idStr (getId ids node).2)
        (nget a node).children
        ⟨(getId ids node).1, seen, rest,
         if (nget a node).is_final
           then lines ++ [finalLine (idStr (getId ids node).2)] else lines⟩
      obtain ⟨e₂, he₂⟩ := bfsLoop_ids_extend a fuel
        (procChildren (idStr (getId ids node).2) (nget a node).children
          ⟨(getId ids node).1, seen, rest,
           if (nget a node).is_final
             then lines ++ [finalLine (idStr (getId ids node).2)] else lines⟩)
      refine ⟨e₀ ++ (e₁ ++ e₂), ?_⟩
      simp only at he₁
      rw [he₂, he₁, he₀]
      simp [List.append_assoc]

/-- The attribution form of the BFS run: the doublecircle lines the loop
emits from here on are, in order, exactly one directive for each accepting
node among the nodes dequeued from here on (the discovered nodes past the
already-processed prefix `p`), each carrying that node's own identifier from
the final id map. -/
theorem bfsLoop_attr {a : List Node} (hInv : ArenaInv a) :
    ∀ (fuel : Nat) (st : BfsSt) (p : List Nat),
    st.seen = p ++ st.queue →
    st.seen.Nodup →
    (∀ x ∈ st.seen, x = 0 ∨ (2 ≤ x ∧ x < a.length)) →
    a.length ≤ fuel + p.length + 1 →
    BfsP st →
    ∃ ext,
      (bfsLoop a fuel st).lines = st.lines ++ ext ∧
      ext.filter isFinalStyle =
        (((bfsLoop a fuel st).seen.drop p.length).filter
          (fun n => (nget a n).is_final)).map
          (fun n => finalLine (idStr ((lookupId (bfsLoop a fuel st).ids n).getD 0)))
  | 0, st, p, hconf, hnd, hrange, hfuel, _ => by
    have hlen : st.seen.length = p.length + st.queue.length := by
      rw [hconf, List.length_append]
    have hcard := seen_card_le a.length hInv.two_le st.seen hnd hrange
    have h2 := hInv.two_le
    have hq : st.queue = [] := List.length_eq_zero.mp (by omega)
    have hres : bfsLoop a 0 st = st := rfl
    have hseen : st.seen = p := by
      rw [hconf, hq, List.append_nil]
    refine ⟨[], by simp [hres], ?_⟩
    rw [hres, hseen, List.drop_length]
    simp
  | fuel + 1, st, p, hconf, hnd, hrange, hfuel, hP => by
    obtain ⟨ids, seen, queue, lines⟩ := st
    obtain ⟨hkeys, hsnd, hq⟩ := hP
    simp only at hconf hnd hrange hkeys hsnd hq
    cases queue with
    | nil =>
      have hres : bfsLoop a (fuel + 1) ⟨ids, seen, [], lines⟩ =
          ⟨ids, seen, [], lines⟩ := by
        simp [bfsLoop]
      have hseen : seen = p := by
        rw [hconf, List.append_nil]
      refine ⟨[], by simp [hres], ?_⟩
      rw [hres]
      show List.filter isFinalStyle [] = ((seen.drop p.length).filter _).map _
      rw [hseen, List.drop_length]
      simp
    | cons node rest =>
      have hnseen : node ∈ seen := hq node (List.mem_cons_self _ _)
      obtain ⟨k, hk⟩ := lookupId_hit ids node (by rw [hkeys]; exact hnseen)
      have hg₁ : getId ids node = (ids, k) := by simp [getId, hk]
      have hstep : bfsLoop a (fuel + 1) ⟨ids, seen, node :: rest, lines⟩ =
          bfsLoop a fuel (procChildren (idStr k) (nget a node).children
            ⟨ids, seen, rest,
             if (nget a node).is_final then lines ++ [finalLine (idStr k)] else lines⟩) := by
        simp [bfsLoop, hg₁]
      obtain ⟨enew, el, hs1, hs2, hs3, hs4, hs5, hs6, hs7⟩ :=
        procChildren_main (idStr k) (nget a node).children
          ⟨ids, seen, rest,
           if (nget a node).is_final then lines ++ [finalLine (idStr k)] else lines⟩
      simp only at hs1 hs2 hs3 hs4 hs5 hs6 hs7
      have hrangeE : ∀ x ∈ enew, 2 ≤ x ∧ x < a.length := by
        intro x hx
        obtain ⟨q, hq₂, hqx⟩ := hs5 x hx
        have hct : x ∈ childTargets a := by
          subst hqx
          exact mem_childTargets_of_edge a node q.1 q.2 (by simpa using hq₂)
        exact ⟨hInv.target_lb x hct, hInv.target_ub x hct⟩
      have hP₂ : BfsP (procChildren (idStr k) (nget a node).children
          ⟨ids, seen, rest,
           if (nget a node).is_final then lines ++ [finalLine (idStr k)] else lines⟩) :=
        procChildren_bfsP (idStr k) (nget a node).children _
          ⟨hkeys, hsnd, fun q₂ hq₂ => hq q₂ (List.mem_cons_of_mem _ hq₂)⟩
      obtain ⟨ext₂, hi1, hi2⟩ :=
        bfsLoop_attr hInv fuel
          (procChildren (idStr k) (nget a node).children
            ⟨ids, seen, rest,
             if (nget a node).is_final then lines ++ [finalLine (idStr k)] else lines⟩)
          (p ++ [node])
          (by
            rw [hs1, hs2]
            rw [hconf]
            simp [List.append_assoc])
          (by rw [hs1]; exact hs7 hnd)
          (by
            rw [hs1]
            intro x hx
            rcases List.mem_append.mp hx with h | h
            · exact hrange x h
            · exact Or.inr (hrangeE x h))
          (by
            rw [List.length_append, List.length_cons, List.length_nil]
            omega)
          hP₂
      rw [hstep]
      -- the final ids extend the current dict, so node keeps the id k
      obtain ⟨eI₁, heI₁⟩ := procChildren_ids_extend (idStr k) (nget a node).children
        ⟨ids, seen, rest,
         if (nget a node).is_final then lines ++ [finalLine (idStr k)] else lines⟩
      simp only at heI₁
      obtain ⟨eI₂, heI₂⟩ := bfsLoop_ids_extend a fuel
        (procChildren (idStr k) (nget a node).children
          ⟨ids, seen, rest,
           if (nget a node).is_final then lines ++ [finalLine (idStr k)] else lines⟩)
      have hkfin : lookupId (bfsLoop a fuel
          (procChildren (idStr k) (nget a node).children
            ⟨ids, seen, rest,
             if (nget a node).is_final then lines ++ [finalLine (idStr k)] else lines⟩)).ids
          node = some k := by
        rw [heI₂, heI₁, List.append_assoc]
        exact lookupId_append_some ids _ node k hk
      -- the final seen decomposes past the processed prefix
      obtain ⟨eS₂, heS₂⟩ := bfsLoop_seen_extend a fuel
        (procChildren (idStr k) (nget a node).children
          ⟨ids, seen, rest,
           if (nget a node).is_final then lines ++ [finalLine (idStr k)] else lines⟩)
      have hseenfin : (bfsLoop a fuel
          (procChildren (idStr k) (nget a node).children
            ⟨ids, seen, rest,
             if (nget a node).is_final then lines ++ [finalLine (idStr k)] else lines⟩)).seen =
          (p ++ [node]) ++ (rest ++ (enew ++ eS₂)) := by
        rw [heS₂, hs1, hconf]
        simp [List.append_assoc]
      have hdrop1 : (bfsLoop a fuel
          (procChildren (idStr k) (nget a node).children
            ⟨ids, seen, rest,
             if (nget a node).is_final then lines ++ [finalLine (idStr k)] else lines⟩)).seen.drop
            p.length = node :: (rest ++ (enew ++ eS₂)) := by
        rw [hseenfin]
        rw [show (p ++ [node]) ++ (rest ++ (enew ++ eS₂)) =
          p ++ (node :: (rest ++ (enew ++ eS₂))) by simp [List.append_assoc]]
        exact List.drop_left p _
      have hdrop2 : (bfsLoop a fuel
          (procChildren (idStr k) (nget a node).children
            ⟨ids, seen, rest,
             if (nget a node).is_final then lines ++ [finalLine (idStr k)] else lines⟩)).seen.drop
            (p ++ [node]).length = rest ++ (enew ++ eS₂) := by
        rw [hseenfin]
        exact List.drop_left (p ++ [node]) _
      refine ⟨(if (nget a node).is_final then [finalLine (idStr k)] else []) ++ el ++ ext₂,
        ?_, ?_⟩
      · rw [hi1, hs3]
        by_cases hf : (nget a node).is_final
        · simp [hf, List.append_assoc]
        · simp [hf, List.append_assoc]
      · rw [List.filter_append, List.filter_append]
        have hel : el.filter isFinalStyle = [] := by
          rw [List.filter_eq_nil_iff]
          intro l hl
          obtain ⟨k₂, c, rfl⟩ := hs4 l hl
          simp [isFinalStyle_edgeLine]
        rw [hel, hdrop1]
        rw [hdrop2] at hi2
        by_cases hf : (nget a node).is_final
        · rw [if_pos hf]
          have hfl : List.filter isFinalStyle [finalLine (idStr k)] = [finalLine (idStr k)] := by
            simp [isFinalStyle_finalLine]
          rw [hfl]
          rw [List.filter_cons_of_pos (by simpa using hf)]
          rw [List.map_cons, hkfin]
          rw [hi2]
          simp
        · rw [if_neg hf]
          rw [List.filter_cons_of_neg (by simpa using hf)]
          rw [hi2]
          simp

theorem toDotRun_attr (d : DFA) (hB : Built d) :
    ∃ ext,
      d.toDotRun.lines =
        (preambleLines ++ [startDeclLine, startEdgeLine (idStr 0)]) ++ ext ∧
      ext.filter isFinalStyle =
        (d.toDotRun.seen.filter (fun n => (nget d.nodes n).is_final)).map
          (fun n => finalLine (idStr ((lookupId d.toDotRun.ids n).getD 0))) := by
  have hInv := built_inv hB
  have hrun : d.toDotRun = bfsLoop d.nodes d.nodes.length
      ⟨[(d.root, 0)], [d.root], [d.root],
       preambleLines ++ [startDeclLine, startEdgeLine (idStr 0)]⟩ := by
    simp [DFA.toDotRun, getId, lookupId]
  obtain ⟨ext, h1, h2⟩ := bfsLoop_attr hInv.arena d.nodes.length
    ⟨[(d.root, 0)], [d.root], [d.root],
     preambleLines ++ [startDeclLine, startEdgeLine (idStr 0)]⟩ []
    (by simp)
    (by simp)
    (by
      intro x hx
      have hx₁ : x = d.root := by simpa using hx
      subst hx₁
      rw [hInv.root_eq]
      exact Or.inl rfl)
    (by simp)
    (by refine ⟨by simp, by simp [List.range_succ], by simp⟩)
  rw [← hrun] at h1 h2
  simp only [List.length_nil, List.drop_zero] at h2
  exact ⟨ext, h1, h2⟩

/-- Every non-trap node of a built automaton is discovered by the export
BFS, and the discovery list has no duplicates. -/
theorem toDotSeen_nodup_complete (d : DFA) (hB : Built d) :
    d.toDotSeen.Nodup ∧
    ∀ j, (j = 0 ∨ (2 ≤ j ∧ j < d.nodes.length)) → j ∈ d.toDotSeen := by
  have hInv := built_inv hB
  have hrun : d.toDotRun = bfsLoop d.nodes d.nodes.length
      ⟨[(d.root, 0)], [d.root], [d.root],
       preambleLines ++ [startDeclLine, startEdgeLine (idStr 0)]⟩ := by
    simp [DFA.toDotRun, getId, lookupId]
  obtain ⟨ext, h1, h2, h3, h4, h5, h6⟩ := bfsLoop_main hInv.arena d.nodes.length
    ⟨[(d.root, 0)], [d.root], [d.root],
     preambleLines ++ [startDeclLine, startEdgeLine (idStr 0)]⟩ []
    (by simp)
    (by simp)
    (by
      intro x hx
      have hx₁ : x = d.root := by simpa using hx
      subst hx₁
      rw [hInv.root_eq]
      exact Or.inl rfl)
    (by simp)
    (by simp)
  rw [← hrun] at h4 h6
  have hroot : 0 ∈ d.toDotRun.seen := by
    obtain ⟨e, he⟩ := bfsLoop_seen_extend d.nodes d.nodes.length
      ⟨[(d.root, 0)], [d.root], [d.root],
       preambleLines ++ [startDeclLine, startEdgeLine (idStr 0)]⟩
    rw [← hrun] at he
    rw [he]
    rw [hInv.root_eq] at he ⊢
    exact List.mem_append_left _ (List.mem_singleton_self 0)
  exact ⟨h4, fun j hj => seen_complete hInv.arena d.toDotRun.seen hroot h6 j hj⟩

/-- C8: for every automaton the class can build, regardless of inserted
symbols, the export output begins with the opening graph declaration
`digraph DFA \x7b`, contains exactly one start-marker edge line and its
target is the root's identifier `Q0`, and contains exactly one
doublecircle (accepting style) directive for each accepting node and none
for non-accepting nodes: in total the number of doublecircle lines equals
the number of accepting nodes, and node by node, the list of doublecircle
lines in the output is exactly one directive per accepting discovered node
carrying that node's own identifier, the discovered nodes are
duplicate-free, and every node of the automaton (root and all trie nodes;
only the trap is excluded) is discovered. -/
theorem C8_export_shape : ∀ (d : DFA), Built d →
    (∃ s, d.to_dot = "digraph DFA \x7b" ++ s) ∧
    d.toDotLines.filter isStartEdge = [startEdgeLine (idStr 0)] ∧
    d.toDotLines.countP isFinalStyle =
      (List.range d.nodes.length).countP (fun j => (nget d.nodes j).is_final) ∧
    d.toDotLines.filter isFinalStyle =
      (d.toDotSeen.filter (fun n => (nget d.nodes n).is_final)).map
        (fun n => finalLine (idStr ((lookupId d.toDotIds n).getD 0))) ∧
    d.toDotSeen.Nodup ∧
    (∀ j, (j = 0 ∨ (2 ≤ j ∧ j < d.nodes.length)) → j ∈ d.toDotSeen) := by
  intro d hB
  obtain ⟨ext, hlines, hshape, hcount⟩ := toDotRun_main d hB
  have hdl : d.toDotLines =
      ((preambleLines ++ [startDeclLine, startEdgeLine (idStr 0)]) ++ ext) ++ ["\x7d"] := by
    unfold DFA.toDotLines
    rw [hlines]
  refine ⟨?_, ?_, ?_, ?_, ?_, ?_⟩
  · obtain ⟨tail, htail⟩ : ∃ tail,
        d.toDotLines = "digraph DFA \x7b" :: "  rankdir=LR;" :: tail := by
      refine ⟨(["  graph [bgcolor=\"#131a2e\"];",
        "  node [shape=circle, style=filled, fillcolor=\"#103c69\", color=\"#2B65EC\", fontcolor=\"white\", fontname=\"Courier\"];  edge [fontcolor=\"#00f7ff\", color=\"#00f7ff\", fontname=\"Courier\"];",
        startDeclLine, startEdgeLine (idStr 0)] ++ ext) ++ ["\x7d"], ?_⟩
      rw [hdl]
      simp [preambleLines]
    exact ⟨"\n" ++ joinSep "\n" ("  rankdir=LR;" :: tail),
      by unfold DFA.to_dot; rw [htail, joinSep_head]⟩
  · rw [hdl, List.filter_append, List.filter_append]
    have h₁ : (preambleLines ++ [startDeclLine, startEdgeLine (idStr 0)]).filter isStartEdge =
        [startEdgeLine (idStr 0)] := by decide
    have h₂ : ext.filter isStartEdge = [] := by
      rw [List.filter_eq_nil_iff]
      intro l hl
      rcases hshape l hl with ⟨k, rfl⟩ | ⟨k₁, k₂, c, rfl⟩
      · simp [isStartEdge_finalLine]
      · simp [isStartEdge_edgeLine]
    have h₃ : (["\x7d"] : List String).filter isStartEdge = [] := by decide
    rw [h₁, h₂, h₃]
    simp
  · rw [hdl, List.countP_append, List.countP_append]
    have h₁ : (preambleLines ++ [startDeclLine, startEdgeLine (idStr 0)]).countP
        isFinalStyle = 0 := by decide
    have h₃ : (["\x7d"] : List String).countP isFinalStyle = 0 := by decide
    rw [h₁, h₃, hcount]
    omega
  · obtain ⟨exta, ha1, ha2⟩ := toDotRun_attr d hB
    have hdla : d.toDotLines =
        ((preambleLines ++ [startDeclLine, startEdgeLine (idStr 0)]) ++ exta) ++ ["\x7d"] := by
      unfold DFA.toDotLines
      rw [ha1]
    rw [hdla, List.filter_append, List.filter_append]
    have h₁ : (preambleLines ++ [startDeclLine, startEdgeLine (idStr 0)]).filter
        isFinalStyle = [] := by decide
    have h₃ : (["\x7d"] : List String).filter isFinalStyle = [] := by decide
    rw [h₁, h₃, ha2]
    show [] ++ _ ++ [] = _
    rw [List.append_nil, List.nil_append]
    rfl
  · exact (toDotSeen_nodup_complete d hB).1
  · exact (toDotSeen_nodup_complete d hB).2

/-- C8 witness: the export shape at the fresh automaton. -/
theorem C8_witness :
    (∃ s, DFA.empty.to_dot = "digraph DFA \x7b" ++ s) ∧
    DFA.empty.toDotLines.filter isStartEdge = [startEdgeLine (idStr 0)] ∧
    DFA.empty.toDotLines.countP isFinalStyle =
      (List.range DFA.empty.nodes.length).countP
        (fun j => (nget DFA.empty.nodes j).is_final) ∧
    DFA.empty.toDotLines.filter isFinalStyle =
      (DFA.empty.toDotSeen.filter (fun n => (nget DFA.empty.nodes n).is_final)).map
        (fun n => finalLine (idStr ((lookupId DFA.empty.toDotIds n).getD 0))) ∧
    DFA.empty.toDotSeen.Nodup ∧
    (∀ j, (j = 0 ∨ (2 ≤ j ∧ j < DFA.empty.nodes.length)) → j ∈ DFA.empty.toDotSeen) :=
  C8_export_shape DFA.empty Built.empty

/-- Renaming of node identities (memory addresses) in a node. -/
def mapNode (φ : Nat → Nat) (nd : Node) : Node :=
  ⟨nd.children.map (fun p => (p.1, φ p.2)), nd.is_final⟩

/-- Renaming of node identities in the `node_ids` dict. -/
def mapIds (φ : Nat → Nat) (ids : List (Nat × Nat)) : List (Nat × Nat) :=
  ids.map (fun p => (φ p.1, p.2))

/-- Renaming of node identities in the BFS state (output lines carry no
identities, only identifier strings, so they are untouched). -/
def mapSt (φ : Nat → Nat) (st : BfsSt) : BfsSt :=
  ⟨mapIds φ st.ids, st.seen.map φ, st.queue.map φ, st.lines⟩

theorem lookupId_comm (φ : Nat → Nat) (N : Nat)
    (hinj : ∀ i j, i < N → j < N → φ i = φ j → i = j) :
    ∀ (ids : List (Nat × Nat)) (n : Nat), (∀ x ∈ ids.map Prod.fst, x < N) → n < N →
    lookupId (mapIds φ ids) (φ n) = lookupId ids n
  | [], _, _, _ => rfl
  | (m, k) :: rest, n, hb, hn => by
    have hm : m < N := hb m (by simp)
    have hrest : ∀ x ∈ rest.map Prod.fst, x < N := by
      intro x hx
      exact hb x (by simp [hx])
    simp only [mapIds, List.map_cons, lookupId]
    by_cases he : n = m
    · subst he
      simp [lookupId]
    · have hne : φ n ≠ φ m := fun hc => he (hinj n m hn hm hc)
      rw [if_neg hne, if_neg he]
      exact lookupId_comm φ N hinj rest n hrest hn

theorem mapIds_keys (φ : Nat → Nat) (ids : List (Nat × Nat)) :
    (mapIds φ ids).map Prod.fst = (ids.map Prod.fst).map φ := by
  simp [mapIds]

theorem procChildren_comm (φ : Nat → Nat) (N : Nat)
    (hinj : ∀ i j, i < N → j < N → φ i = φ j → i = j) (nid : String) :
    ∀ (children : List (Char × Nat)) (st : BfsSt),
    st.ids.map Prod.fst = st.seen →
    (∀ x ∈ st.seen, x < N) →
    (∀ q ∈ children, q.2 < N) →
    procChildren nid (children.map (fun p => (p.1, φ p.2))) (mapSt φ st) =
      mapSt φ (procChildren nid children st)
  | [], st, _, _, _ => by simp [procChildren]
  | (ch, child) :: rest, st, hkeys, hb, hch => by
    obtain ⟨ids, seen, queue, lines⟩ := st
    simp only at hkeys hb
    have hchild : child < N := hch (ch, child) (List.mem_cons_self _ _)
    have hrest : ∀ q ∈ rest, q.2 < N := fun q hq => hch q (List.mem_cons_of_mem _ hq)
    have hbk : ∀ x ∈ ids.map Prod.fst, x < N := by
      rw [hkeys]
      exact hb
    have hlk := lookupId_comm φ N hinj ids child hbk hchild
    have hget : getId (mapIds φ ids) (φ child) =
        ((getId ids child).1.map (fun p => (φ p.1, p.2)), (getId ids child).2) := by
      unfold getId
      rw [hlk]
      cases hl : lookupId ids child with
      | some k => simp [mapIds]
      | none => simp [mapIds]
    have hmemiff : (φ child ∈ seen.map φ) ↔ (child ∈ seen) := by
      constructor
      · intro h
        obtain ⟨x, hx, hxe⟩ := List.mem_map.mp h
        have : x = child := hinj x child (hb x hx) hchild hxe
        subst this
        exact hx
      · intro h
        exact List.mem_map_of_mem φ h
    by_cases hc : child ∈ seen
    · have hc₂ : φ child ∈ seen.map φ := hmemiff.mpr hc
      have hstep₂ : procChildren nid (((ch, child) :: rest).map (fun p => (p.1, φ p.2)))
          (mapSt φ ⟨ids, seen, queue, lines⟩) =
          procChildren nid (rest.map (fun p => (p.1, φ p.2)))
            (mapSt φ ⟨(getId ids child).1, seen, queue,
              lines ++ [edgeLine nid (idStr (getId ids child).2) (escapeLabel ch)]⟩) := by
        simp only [List.map_cons, procChildren, mapSt, hget, hc₂, if_true]
        rfl
      have hstep₁ : procChildren nid ((ch, child) :: rest) ⟨ids, seen, queue, lines⟩ =
          procChildren nid rest
            ⟨(getId ids child).1, seen, queue,
             lines ++ [edgeLine nid (idStr (getId ids child).2) (escapeLabel ch)]⟩ := by
        simp [procChildren, hc]
      rw [hstep₁, hstep₂]
      refine procChildren_comm φ N hinj nid rest _ ?_ ?_ hrest
      · show (getId ids child).1.map Prod.fst = seen
        unfold getId
        cases hl : lookupId ids child with
        | some k => simpa using hkeys
        | none =>
          exfalso
          rw [lookupId_eq_none, hkeys] at hl
          exact hl hc
      · exact hb
    · have hc₂ : φ child ∉ seen.map φ := fun h => hc (hmemiff.mp h)
      have hlen : ids.length = (mapIds φ ids).length := by simp [mapIds]
      have hnone : lookupId ids child = none := by
        rw [lookupId_eq_none, hkeys]
        exact hc
      have hstep₂ : procChildren nid (((ch, child) :: rest).map (fun p => (p.1, φ p.2)))
          (mapSt φ ⟨ids, seen, queue, lines⟩) =
          procChildren nid (rest.map (fun p => (p.1, φ p.2)))
            (mapSt φ ⟨ids ++ [(child, ids.length)], seen ++ [child], queue ++ [child],
              lines ++ [edgeLine nid (idStr ids.length) (escapeLabel ch)]⟩) := by
        simp only [List.map_cons, procChildren, mapSt, hget, hc₂, if_false]
        unfold getId
        rw [hnone]
        simp [mapIds]
      have hstep₁ : procChildren nid ((ch, child) :: rest) ⟨ids, seen, queue, lines⟩ =
          procChildren nid rest
            ⟨ids ++ [(child, ids.length)], seen ++ [child], queue ++ [child],
             lines ++ [edgeLine nid (idStr ids.length) (escapeLabel ch)]⟩ := by
        simp [procChildren, hc, getId, hnone]
      rw [hstep₁, hstep₂]
      refine procChildren_comm φ N hinj nid rest _ ?_ ?_ hrest
      · show (ids ++ [(child, ids.length)]).map Prod.fst = seen ++ [child]
        simp [hkeys]
      · intro x hx
        rcases List.mem_append.mp hx with h | h
        · exact hb x h
        · have : x = child := by simpa using h
          subst this
          exact hchild

theorem bfsLoop_comm (φ : Nat → Nat) (N : Nat)
    (hinj : ∀ i j, i < N → j < N → φ i = φ j → i = j)
    (a a₂ : List Node)
    (hnode : ∀ i, i < N → nget a₂ (φ i) = mapNode φ (nget a i))
    (hub : ∀ i c j, (c, j) ∈ (nget a i).children → j < N) :
    ∀ (fuel : Nat) (st : BfsSt), BfsP st → (∀ x ∈ st.seen, x < N) →
    bfsLoop a₂ fuel (mapSt φ st) = mapSt φ (bfsLoop a fuel st)
  | 0, st, _, _ => by simp [bfsLoop]
  | fuel + 1, st, hP, hb => by
    obtain ⟨ids, seen, queue, lines⟩ := st
    obtain ⟨hkeys, hsnd, hq⟩ := hP
    simp only at hkeys hsnd hq hb
    cases queue with
    | nil => simp [bfsLoop, mapSt]
    | cons node rest =>
      have hnseen : node ∈ seen := hq node (List.mem_cons_self _ _)
      have hnN : node < N := hb node hnseen
      obtain ⟨k, hk⟩ := lookupId_hit ids node (by rw [hkeys]; exact hnseen)
      have hbk : ∀ x ∈ ids.map Prod.fst, x < N := by
        rw [hkeys]
        exact hb
      have hlk := lookupId_comm φ N hinj ids node hbk hnN
      have hg₁ : getId ids node = (ids, k) := by simp [getId, hk]
      have hg₂ : getId (mapIds φ ids) (φ node) = (mapIds φ ids, k) := by
        simp [getId, hlk, hk]
      have hnd₂ : nget a₂ (φ node) = mapNode φ (nget a node) := hnode node hnN
      have hstep₁ : bfsLoop a (fuel + 1) ⟨ids, seen, node :: rest, lines⟩ =
          bfsLoop a fuel (procChildren (idStr k) (nget a node).children
            ⟨ids, seen, rest,
             if (nget a node).is_final then lines ++ [finalLine (idStr k)] else lines⟩) := by
        simp [bfsLoop, hg₁]
      have hstep₂ : bfsLoop a₂ (fuel + 1) (mapSt φ ⟨ids, seen, node :: rest, lines⟩) =
          bfsLoop a₂ fuel
            (procChildren (idStr k) ((nget a node).children.map (fun p => (p.1, φ p.2)))
              (mapSt φ ⟨ids, seen, rest,
                if (nget a node).is_final then lines ++ [finalLine (idStr k)] else lines⟩)) := by
        show bfsLoop a₂ (fuel + 1) ⟨mapIds φ ids, seen.map φ, φ node :: rest.map φ, lines⟩ = _
        simp only [bfsLoop, hg₂, hnd₂]
        rfl
      rw [hstep₁, hstep₂]
      have hcomm := procChildren_comm φ N hinj (idStr k) (nget a node).children
        ⟨ids, seen, rest,
         if (nget a node).is_final then lines ++ [finalLine (idStr k)] else lines⟩
        hkeys hb (fun q hq₂ => hub node q.1 q.2 (by simpa using hq₂))
      rw [hcomm]
      have hP₂ : BfsP (procChildren (idStr k) (nget a node).children
          ⟨ids, seen, rest,
           if (nget a node).is_final then lines ++ [finalLine (idStr k)] else lines⟩) :=
        procChildren_bfsP (idStr k) (nget a node).children _
          ⟨hkeys, hsnd, fun q hq₂ => hq q (List.mem_cons_of_mem _ hq₂)⟩
      obtain ⟨enew, el, hs1, hs2, hs3, hs4, hs5, hs6, hs7⟩ :=
        procChildren_main (idStr k) (nget a node).children
          ⟨ids, seen, rest,
           if (nget a node).is_final then lines ++ [finalLine (idStr k)] else lines⟩
      refine bfsLoop_comm φ N hinj a a₂ hnode hub fuel _ hP₂ ?_
      rw [hs1]
      intro x hx
      rcases List.mem_append.mp hx with h | h
      · exact hb x h
      · obtain ⟨q, hq₂, hqx⟩ := hs5 x h
        subst hqx
        exact hub node q.1 q.2 (by simpa using hq₂)

/-- C9: the export output is invariant under any renaming of node
identities (the arena indices stand for Python object identities, i.e.
memory addresses): if `d₂` is the automaton built by the same sequence of
insertions but with its nodes laid out at different identities via an
injective relabeling `φ` fixing the abstract tree (same root, relabeled
transitions, same flags), then `to_dot` produces byte-identical output.
Together with the fact that `to_dot` is a pure function of the automaton
value, the output of the export depends only on the tree structure and BFS
discovery order, not on run-dependent identities. -/
theorem C9_export_deterministic : ∀ (ws : List (List Char)) (d₂ : DFA) (φ : Nat → Nat),
    d₂.nodes.length = (buildList ws).nodes.length →
    d₂.root = φ (buildList ws).root →
    (∀ i j, i < (buildList ws).nodes.length → j < (buildList ws).nodes.length →
      φ i = φ j → i = j) →
    (∀ i, i < (buildList ws).nodes.length →
      nget d₂.nodes (φ i) = mapNode φ (nget (buildList ws).nodes i)) →
    d₂.to_dot = (buildList ws).to_dot := by
  intro ws d₂ φ hlen hroot hinj hnode
  have hInv := built_inv (buildList_built ws)
  have hub : ∀ i c j, (c, j) ∈ (nget (buildList ws).nodes i).children →
      j < (buildList ws).nodes.length := by
    intro i c j h
    exact hInv.arena.target_ub j (mem_childTargets_of_edge _ i c j h)
  have hrun₁ : (buildList ws).toDotRun =
      bfsLoop (buildList ws).nodes (buildList ws).nodes.length
        ⟨[((buildList ws).root, 0)], [(buildList ws).root], [(buildList ws).root],
         preambleLines ++ [startDeclLine, startEdgeLine (idStr 0)]⟩ := by
    simp [DFA.toDotRun, getId, lookupId]
  have hrun₂ : d₂.toDotRun =
      bfsLoop d₂.nodes d₂.nodes.length
        ⟨[(d₂.root, 0)], [d₂.root], [d₂.root],
         preambleLines ++ [startDeclLine, startEdgeLine (idStr 0)]⟩ := by
    simp [DFA.toDotRun, getId, lookupId]
  have hst0 : (⟨[(d₂.root, 0)], [d₂.root], [d₂.root],
      preambleLines ++ [startDeclLine, startEdgeLine (idStr 0)]⟩ : BfsSt) =
      mapSt φ ⟨[((buildList ws).root, 0)], [(buildList ws).root], [(buildList ws).root],
        preambleLines ++ [startDeclLine, startEdgeLine (idStr 0)]⟩ := by
    simp [mapSt, mapIds, hroot]
  have hP0 : BfsP ⟨[((buildList ws).root, 0)], [(buildList ws).root], [(buildList ws).root],
      preambleLines ++ [startDeclLine, startEdgeLine (idStr 0)]⟩ := by
    refine ⟨by simp, by simp [List.range_succ], by simp⟩
  have hb0 : ∀ x ∈ ([(buildList ws).root] : List Nat), x < (buildList ws).nodes.length := by
    intro x hx
    have hx₁ : x = (buildList ws).root := by simpa using hx
    subst hx₁
    rw [hInv.root_eq]
    have := hInv.arena.two_le
    omega
  have hcomm := bfsLoop_comm φ (buildList ws).nodes.length hinj
    (buildList ws).nodes d₂.nodes hnode hub (buildList ws).nodes.length
    ⟨[((buildList ws).root, 0)], [(buildList ws).root], [(buildList ws).root],
     preambleLines ++ [startDeclLine, startEdgeLine (idStr 0)]⟩ hP0 hb0
  have hlines : d₂.toDotRun.lines = (buildList ws).toDotRun.lines := by
    rw [hrun₂, hrun₁, hlen, hst0, hcomm]
    rfl
  show joinSep "\n" (d₂.toDotRun.lines ++ ["\x7d"]) =
    joinSep "\n" ((buildList ws).toDotRun.lines ++ ["\x7d"])
  rw [hlines]

/-- C9 witness: the relabeling swapping indices 0 and 2 applied to the
automaton built from the single word "a" leaves the export output
unchanged. -/
theorem C9_witness :
    (⟨[⟨[], true⟩, ⟨[], false⟩, ⟨[('a', 0)], false⟩], 2, 1⟩ : DFA).to_dot =
      (buildList [['a']]).to_dot :=
  C9_export_deterministic [['a']]
    ⟨[⟨[], true⟩, ⟨[], false⟩, ⟨[('a', 0)], false⟩], 2, 1⟩
    (fun n => if n = 0 then 2 else if n = 2 then 0 else n)
    (by decide) (by decide)
    (by
      intro i j hi hj h
      have hi₃ : i < 3 := by simpa [buildList, DFA.empty, DFA.insert, insertFrom] using hi
      have hj₃ : j < 3 := by simpa [buildList, DFA.empty, DFA.insert, insertFrom] using hj
      interval_cases i <;> interval_cases j <;> simp_all)
    (by
      intro i hi
      have hi₃ : i < 3 := by simpa [buildList, DFA.empty, DFA.insert, insertFrom] using hi
      interval_cases i <;> decide)

example : DFA.accepts (DFA.insert DFA.empty ['c', 'a', 't']) ['c', 'a', 't'] = true := by decide

example : DFA.accepts (DFA.insert DFA.empty ['c', 'a', 't']) ['c', ',', 'a', '.', 't'] = true := by decide

example : DFA.accepts (DFA.insert DFA.empty [',']) [','] = false := by decide

example : (buildList [['a']]).toDotLines =
    ["digraph DFA \x7b",
     "  rankdir=LR;",
     "  graph [bgcolor=\"#131a2e\"];",
     "  node [shape=circle, style=filled, fillcolor=\"#103c69\", color=\"#2B65EC\", fontcolor=\"white\", fontname=\"Courier\"];  edge [fontcolor=\"#00f7ff\", color=\"#00f7ff\", fontname=\"Courier\"];",
     "  __start__ [shape=none,label=\"\"];",
     "  __start__ -> Q0;",
     "  Q0 -> Q1 [label=\"a\"];",
     "  Q1 [shape=doublecircle, style=filled, fillcolor=\"#66CC66\", color=\"#339933\", fontcolor=\"white\"];",
     "\x7d"] := by decide

end DfaPy
